import Mathlib

/-!
Shallow embedding of the Veil block-template assembler and miner driver
(miner.cpp) together with proofs about its transaction selection, privacy
screening, coinbase construction and driver loops.

Conventions of the embedding:
  * uint256 hashes and scripts are modelled as `Nat`; `CAmount` (int64) as
    `Int`; sizes, weights and sigop counts as `Int` (the source uses
    uint64/int64; overflow of 64-bit arithmetic is not modelled, it is
    unreachable for the quantities involved);
  * `std::set<uint256>` is modelled as a `List Nat` used only through
    membership;
  * external collaborators (mempool indices, chain lookups, wallet) enter as
    explicit parameters, mirroring the interfaces the source consumes.
-/

namespace VeilMiner

/-! ## Consensus and policy constants (consensus.h / policy.h) -/

def WITNESS_SCALE_FACTOR : Int := 4

def MAX_BLOCK_WEIGHT : Int := 4000000

def MAX_BLOCK_SIGOPS_COST : Int := 80000

def MAX_CONSECUTIVE_FAILURES : Nat := 1000

/-! ## Resource accounting

`BlockAssembler::TestPackage` (miner.cpp lines 466-474): the fit test run
against the accumulated block weight and sigop cost. -/

def TestPackage (nBlockWeight nBlockMaxWeight nBlockSigOpsCost : Int)
    (packageSize packageSigOpsCost : Int) : Bool :=
  if nBlockWeight + WITNESS_SCALE_FACTOR * packageSize ≥ nBlockMaxWeight then false
  else if nBlockSigOpsCost + packageSigOpsCost ≥ MAX_BLOCK_SIGOPS_COST then false
  else true

/-! ## Transactions as the privacy screening of CreateNewBlock sees them

`CreateNewBlock` (miner.cpp lines 209-298) inspects, for each selected
transaction: its hash, whether it is a zerocoin spend / mint, the serial
hashes (`TxToSerialHashSet`) and pubcoin hashes (`TxToPubcoinHashSet`), its
outputs, whether `vin[0].IsAnonInput()`, and whether the chain UTXO view has
its inputs (`CCoinsViewCache::HaveInputs`). -/

structure TxOutput where
  isStandardOutput : Bool
  scriptPubKey : Nat
  value : Int
deriving DecidableEq

structure BlockTx where
  hash : Nat
  isZerocoinSpend : Bool
  isZerocoinMint : Bool
  serialHashes : List Nat
  pubcoinHashes : List Nat
  anonInput : Bool
  haveInputs : Bool
  outputs : List TxOutput
deriving DecidableEq

/-- Chain-state lookups the screening consumes: `IsSerialInBlockchain`
("already recorded on chain below the template height"),
`IsPubcoinInBlockchain`, and the script of the network reward address
(`GetScriptForDestination(DecodeDestination(Params().NetworkRewardAddress()))`). -/
structure ChainView where
  serialInChain : Nat → Bool
  pubcoinInChain : Nat → Bool
  rewardScript : Nat

/-- The serial hashes the screening iterates for a transaction:
`TxToSerialHashSet` is called only when `IsZerocoinSpend()`. -/
def txSerialList (tx : BlockTx) : List Nat :=
  if tx.isZerocoinSpend then tx.serialHashes else []

/-- The pubcoin hashes the screening iterates: `TxToPubcoinHashSet` is called
only when `IsZerocoinMint()`. -/
def txPubcoinList (tx : BlockTx) : List Nat :=
  if tx.isZerocoinMint then tx.pubcoinHashes else []

/-- One inner screening loop (miner.cpp lines 226-242 for serials, 247-264
for pubcoins): walk the hashes of one transaction; a hash already in the
accumulated set, or already in the chain, marks the transaction for removal
and stops the walk (the colliding hash is not inserted); otherwise the hash
is inserted and the walk goes on. Returns the grown set and the fRemove flag. -/
def scanHashes (inChain : Nat → Bool) : List Nat → List Nat → List Nat × Bool
  | acc, [] => (acc, false)
  | acc, h :: rest =>
    if h ∈ acc then (acc, true)
    else if inChain h then (acc, true)
    else scanHashes inChain (h :: acc) rest

/-- Value this transaction adds to the network reward reserve (miner.cpp
lines 268-274): the sum of the values of its standard outputs whose script
equals the reward script. -/
def rewardContribution (rewardScript : Nat) (tx : BlockTx) : Int :=
  ((tx.outputs.filter fun o => o.isStandardOutput && o.scriptPubKey == rewardScript).map
    (·.value)).sum

/-- State of the first screening loop: `setSerials`, `setPubcoins`,
`setDuplicate` and the running `nNetworkRewardReserve`. -/
structure ScanState where
  setSerials : List Nat
  setPubcoins : List Nat
  setDuplicate : List Nat
  reserve : Int
deriving DecidableEq

/-- Screening of one transaction (one iteration of the loop at miner.cpp
lines 212-275): scan its serials; on a hit record the hash in `setDuplicate`
and skip the rest (`continue`). Then scan its pubcoins the same way. A clean
transaction contributes its reward outputs to the reserve. -/
def scanTx (cv : ChainView) (st : ScanState) (tx : BlockTx) : ScanState :=
  let sres := scanHashes cv.serialInChain st.setSerials (txSerialList tx)
  if sres.2 then
    { st with setSerials := sres.1, setDuplicate := tx.hash :: st.setDuplicate }
  else
    let pres := scanHashes cv.pubcoinInChain st.setPubcoins (txPubcoinList tx)
    if pres.2 then
      { st with setSerials := sres.1, setPubcoins := pres.1,
                setDuplicate := tx.hash :: st.setDuplicate }
    else
      { st with setSerials := sres.1, setPubcoins := pres.1,
                reserve := st.reserve + rewardContribution cv.rewardScript tx }

/-- One step of the fold over `pblock->vtx`: the null slot (the dummy
coinbase) is skipped. -/
def scanStep (cv : ChainView) (st : ScanState) (otx : Option BlockTx) : ScanState :=
  match otx with
  | none => st
  | some tx => scanTx cv st tx

/-- The whole first screening loop over the block body, starting from the
carried reserve of the previous block (miner.cpp line 202). -/
def scanBlock (cv : ChainView) (vtx : List (Option BlockTx)) (initReserve : Int) :
    ScanState :=
  vtx.foldl (scanStep cv) ⟨[], [], [], initReserve⟩

/-- The rebuild loop (miner.cpp lines 277-298): null slots are kept;
transactions in `setDuplicate` are dropped; a remaining transaction that is
not a zerocoin spend, whose first input is not anonymous, and whose inputs
are missing from the UTXO view is dropped as well. Order is preserved. -/
def rebuildVtx (dups : List Nat) (vtx : List (Option BlockTx)) :
    List (Option BlockTx) :=
  vtx.filter fun otx =>
    match otx with
    | none => true
    | some tx =>
      decide (tx.hash ∉ dups) && (tx.isZerocoinSpend || tx.anonInput || tx.haveInputs)

/-- The hashes handed to `mempool.removeRecursive` by the rebuild loop, in
order: every non-null transaction whose hash is in `setDuplicate`. -/
def evictedHashes (dups : List Nat) (vtx : List (Option BlockTx)) : List Nat :=
  vtx.filterMap fun otx =>
    match otx with
    | none => none
    | some tx => if tx.hash ∈ dups then some tx.hash else none

/-- The capped network reward (miner.cpp line 300). -/
def cappedNetworkReward (maxNetworkReward reserve : Int) : Int :=
  if reserve > maxNetworkReward then maxNetworkReward else reserve

/-! ## Lemmas about the hash scans -/

theorem scanHashes_fst_subset (ic : Nat → Bool) (l acc : List Nat) :
    acc ⊆ (scanHashes ic acc l).1 := by
  induction l generalizing acc with
  | nil => simp [scanHashes]
  | cons h t ih =>
    intro x hx
    simp only [scanHashes]
    split
    · exact hx
    · split
      · exact hx
      · exact ih (h :: acc) (List.mem_cons_of_mem _ hx)

theorem scanHashes_mem_of_clean (ic : Nat → Bool) (l acc : List Nat)
    (hclean : (scanHashes ic acc l).2 = false) :
    ∀ h ∈ l, h ∈ (scanHashes ic acc l).1 := by
  induction l generalizing acc with
  | nil => simp
  | cons h t ih =>
    intro x hx
    by_cases h1 : h ∈ acc
    · simp [scanHashes, h1] at hclean
    · by_cases h2 : ic h = true
      · simp [scanHashes, h1, h2] at hclean
      · have hrec : (scanHashes ic (h :: acc) t).2 = false := by
          simpa [scanHashes, h1, h2] using hclean
        have hgoal : (scanHashes ic acc (h :: t)).1 = (scanHashes ic (h :: acc) t).1 := by
          simp [scanHashes, h1, h2]
        rw [hgoal]
        rcases List.mem_cons.mp hx with rfl | hxe
        · exact scanHashes_fst_subset ic t (x :: acc) (List.mem_cons_self _ _)
        · exact ih (h :: acc) hrec x hxe

theorem scanHashes_not_inChain_of_clean (ic : Nat → Bool) (l acc : List Nat)
    (hclean : (scanHashes ic acc l).2 = false) :
    ∀ h ∈ l, ic h = false := by
  induction l generalizing acc with
  | nil => simp
  | cons h t ih =>
    intro x hx
    by_cases h1 : h ∈ acc
    · simp [scanHashes, h1] at hclean
    · by_cases h2 : ic h = true
      · simp [scanHashes, h1, h2] at hclean
      · have hrec : (scanHashes ic (h :: acc) t).2 = false := by
          simpa [scanHashes, h1, h2] using hclean
        rcases List.mem_cons.mp hx with rfl | hxe
        · simpa using h2
        · exact ih (h :: acc) hrec x hxe

theorem scanHashes_not_init_of_clean (ic : Nat → Bool) (l acc : List Nat)
    (hclean : (scanHashes ic acc l).2 = false) :
    ∀ h ∈ l, h ∉ acc := by
  induction l generalizing acc with
  | nil => simp
  | cons h t ih =>
    intro x hx
    by_cases h1 : h ∈ acc
    · simp [scanHashes, h1] at hclean
    · by_cases h2 : ic h = true
      · simp [scanHashes, h1, h2] at hclean
      · have hrec : (scanHashes ic (h :: acc) t).2 = false := by
          simpa [scanHashes, h1, h2] using hclean
        rcases List.mem_cons.mp hx with rfl | hxe
        · exact h1
        · intro hmem
          exact ih (h :: acc) hrec x hxe (List.mem_cons_of_mem _ hmem)

theorem scanHashes_rem_of_mem (ic : Nat → Bool) (l acc : List Nat) (h : Nat)
    (hl : h ∈ l) (hacc : h ∈ acc) : (scanHashes ic acc l).2 = true := by
  induction l generalizing acc with
  | nil => simp at hl
  | cons h0 t ih =>
    by_cases h1 : h0 ∈ acc
    · simp [scanHashes, h1]
    · by_cases h2 : ic h0 = true
      · simp [scanHashes, h1, h2]
      · have hgoal : (scanHashes ic acc (h0 :: t)).2 = (scanHashes ic (h0 :: acc) t).2 := by
          simp [scanHashes, h1, h2]
        rw [hgoal]
        rcases List.mem_cons.mp hl with rfl | hte
        · exact absurd hacc h1
        · exact ih (h0 :: acc) hte (List.mem_cons_of_mem _ hacc)

/-! ## Lemmas about the per-transaction screening and the whole scan -/

/-- Growth of the three screening sets from one state to another. -/
def ScanLE (st st' : ScanState) : Prop :=
  st.setSerials ⊆ st'.setSerials ∧ st.setPubcoins ⊆ st'.setPubcoins ∧
    st.setDuplicate ⊆ st'.setDuplicate

theorem ScanLE.rfl (st : ScanState) : ScanLE st st :=
  ⟨List.Subset.refl _, List.Subset.refl _, List.Subset.refl _⟩

theorem ScanLE.trans {s1 s2 s3 : ScanState} (h1 : ScanLE s1 s2) (h2 : ScanLE s2 s3) :
    ScanLE s1 s3 :=
  ⟨h1.1.trans h2.1, h1.2.1.trans h2.2.1, h1.2.2.trans h2.2.2⟩

theorem scanTx_le (cv : ChainView) (st : ScanState) (tx : BlockTx) :
    ScanLE st (scanTx cv st tx) := by
  by_cases hs : (scanHashes cv.serialInChain st.setSerials (txSerialList tx)).2 = true
  · have hform : scanTx cv st tx = { st with
        setSerials := (scanHashes cv.serialInChain st.setSerials (txSerialList tx)).1,
        setDuplicate := tx.hash :: st.setDuplicate } := by
      simp [scanTx, hs]
    rw [hform]
    exact ⟨scanHashes_fst_subset _ _ _, List.Subset.refl _, List.subset_cons_self _ _⟩
  · rw [Bool.not_eq_true] at hs
    by_cases hp : (scanHashes cv.pubcoinInChain st.setPubcoins (txPubcoinList tx)).2 = true
    · have hform : scanTx cv st tx = { st with
          setSerials := (scanHashes cv.serialInChain st.setSerials (txSerialList tx)).1,
          setPubcoins := (scanHashes cv.pubcoinInChain st.setPubcoins (txPubcoinList tx)).1,
          setDuplicate := tx.hash :: st.setDuplicate } := by
        simp [scanTx, hs, hp]
      rw [hform]
      exact ⟨scanHashes_fst_subset _ _ _, scanHashes_fst_subset _ _ _,
        List.subset_cons_self _ _⟩
    · rw [Bool.not_eq_true] at hp
      have hform : scanTx cv st tx = { st with
          setSerials := (scanHashes cv.serialInChain st.setSerials (txSerialList tx)).1,
          setPubcoins := (scanHashes cv.pubcoinInChain st.setPubcoins (txPubcoinList tx)).1,
          reserve := st.reserve + rewardContribution cv.rewardScript tx } := by
        simp [scanTx, hs, hp]
      rw [hform]
      exact ⟨scanHashes_fst_subset _ _ _, scanHashes_fst_subset _ _ _, List.Subset.refl _⟩

theorem scanStep_le (cv : ChainView) (st : ScanState) (otx : Option BlockTx) :
    ScanLE st (scanStep cv st otx) := by
  cases otx with
  | none => exact ScanLE.rfl st
  | some tx => exact scanTx_le cv st tx

theorem foldl_scanStep_le (cv : ChainView) (l : List (Option BlockTx)) (st : ScanState) :
    ScanLE st (l.foldl (scanStep cv) st) := by
  induction l generalizing st with
  | nil => exact ScanLE.rfl st
  | cons o t ih => exact (scanStep_le cv st o).trans (ih (scanStep cv st o))

theorem scanBlock_append (cv : ChainView) (p q : List (Option BlockTx)) (r : Int) :
    scanBlock cv (p ++ q) r = q.foldl (scanStep cv) (scanBlock cv p r) := by
  unfold scanBlock
  exact List.foldl_append _ _ p q

theorem scanBlock_snoc (cv : ChainView) (p : List (Option BlockTx)) (ot : Option BlockTx)
    (r : Int) : scanBlock cv (p ++ [ot]) r = scanStep cv (scanBlock cv p r) ot := by
  rw [scanBlock_append]
  rfl

theorem scanBlock_prefix_le (cv : ChainView) (p q : List (Option BlockTx)) (r : Int) :
    ScanLE (scanBlock cv p r) (scanBlock cv (p ++ q) r) := by
  rw [scanBlock_append]
  exact foldl_scanStep_le cv q (scanBlock cv p r)

/-- A transaction whose hash did not land in `setDuplicate` was scanned
cleanly: both scans ran to the end, every one of its serial and pubcoin
hashes was inserted, none was already in the chain, none was already in the
respective set, the duplicate set is unchanged and it contributed its reward
outputs. -/
theorem scanTx_clean_facts (cv : ChainView) (st : ScanState) (tx : BlockTx)
    (h : tx.hash ∉ (scanTx cv st tx).setDuplicate) :
    (∀ s ∈ txSerialList tx, s ∈ (scanTx cv st tx).setSerials ∧
        cv.serialInChain s = false ∧ s ∉ st.setSerials) ∧
    (∀ p ∈ txPubcoinList tx, p ∈ (scanTx cv st tx).setPubcoins ∧
        cv.pubcoinInChain p = false ∧ p ∉ st.setPubcoins) ∧
    (scanTx cv st tx).setDuplicate = st.setDuplicate ∧
    (scanTx cv st tx).reserve = st.reserve + rewardContribution cv.rewardScript tx := by
  by_cases hs : (scanHashes cv.serialInChain st.setSerials (txSerialList tx)).2 = true
  · exact absurd (by simp [scanTx, hs]) h
  · rw [Bool.not_eq_true] at hs
    by_cases hp : (scanHashes cv.pubcoinInChain st.setPubcoins (txPubcoinList tx)).2 = true
    · exact absurd (by simp [scanTx, hs, hp]) h
    · rw [Bool.not_eq_true] at hp
      have hform : scanTx cv st tx =
          { st with
            setSerials := (scanHashes cv.serialInChain st.setSerials (txSerialList tx)).1,
            setPubcoins := (scanHashes cv.pubcoinInChain st.setPubcoins (txPubcoinList tx)).1,
            reserve := st.reserve + rewardContribution cv.rewardScript tx } := by
        simp [scanTx, hs, hp]
      refine ⟨fun s hsl => ?_, fun p hpl => ?_, by rw [hform], by rw [hform]⟩
      · exact ⟨by rw [hform]; exact scanHashes_mem_of_clean _ _ _ hs s hsl,
          scanHashes_not_inChain_of_clean _ _ _ hs s hsl,
          scanHashes_not_init_of_clean _ _ _ hs s hsl⟩
      · exact ⟨by rw [hform]; exact scanHashes_mem_of_clean _ _ _ hp p hpl,
          scanHashes_not_inChain_of_clean _ _ _ hp p hpl,
          scanHashes_not_init_of_clean _ _ _ hp p hpl⟩

/-- A transaction carrying a serial that is already in `setSerials` is marked
for removal. -/
theorem scanTx_dup_of_serial_hit (cv : ChainView) (st : ScanState) (tx : BlockTx)
    (s : Nat) (hs : s ∈ txSerialList tx) (hacc : s ∈ st.setSerials) :
    tx.hash ∈ (scanTx cv st tx).setDuplicate := by
  have hrem := scanHashes_rem_of_mem cv.serialInChain (txSerialList tx) st.setSerials s hs hacc
  simp [scanTx, hrem]

/-- A transaction carrying a pubcoin that is already in `setPubcoins` is
marked for removal. -/
theorem scanTx_dup_of_pubcoin_hit (cv : ChainView) (st : ScanState) (tx : BlockTx)
    (p : Nat) (hp : p ∈ txPubcoinList tx) (hacc : p ∈ st.setPubcoins) :
    tx.hash ∈ (scanTx cv st tx).setDuplicate := by
  by_cases hs : (scanHashes cv.serialInChain st.setSerials (txSerialList tx)).2 = true
  · simp [scanTx, hs]
  · rw [Bool.not_eq_true] at hs
    have hrem := scanHashes_rem_of_mem cv.pubcoinInChain (txPubcoinList tx) st.setPubcoins p hp hacc
    simp [scanTx, hs, hrem]

/-- Either the scanned transaction was marked duplicate (sets get its hash,
reserve untouched) or it was clean (duplicate set untouched, reserve grows by
its contribution). -/
theorem scanTx_cases (cv : ChainView) (st : ScanState) (tx : BlockTx) :
    ((scanTx cv st tx).setDuplicate = tx.hash :: st.setDuplicate ∧
      (scanTx cv st tx).reserve = st.reserve) ∨
    ((scanTx cv st tx).setDuplicate = st.setDuplicate ∧
      (scanTx cv st tx).reserve = st.reserve + rewardContribution cv.rewardScript tx) := by
  by_cases hs : (scanHashes cv.serialInChain st.setSerials (txSerialList tx)).2 = true
  · exact Or.inl ⟨by simp [scanTx, hs], by simp [scanTx, hs]⟩
  · rw [Bool.not_eq_true] at hs
    by_cases hp : (scanHashes cv.pubcoinInChain st.setPubcoins (txPubcoinList tx)).2 = true
    · exact Or.inl ⟨by simp [scanTx, hs, hp], by simp [scanTx, hs, hp]⟩
    · rw [Bool.not_eq_true] at hp
      exact Or.inr ⟨by simp [scanTx, hs, hp], by simp [scanTx, hs, hp]⟩

/-- Hashes in `setDuplicate` all come from scanned transactions. -/
theorem foldl_dups_subset (cv : ChainView) (l : List (Option BlockTx)) (st : ScanState) :
    (l.foldl (scanStep cv) st).setDuplicate ⊆
      st.setDuplicate ++ (l.filterMap id).map (·.hash) := by
  induction l generalizing st with
  | nil => simp
  | cons o t ih =>
    cases o with
    | none =>
      intro x hx
      have := ih st hx
      simpa using this
    | some tx =>
      intro x hx
      have h1 := ih (scanTx cv st tx) hx
      have h2 : (scanTx cv st tx).setDuplicate ⊆ tx.hash :: st.setDuplicate := by
        rcases scanTx_cases cv st tx with ⟨hd, _⟩ | ⟨hd, _⟩
        · rw [hd]; exact List.Subset.refl _
        · rw [hd]; exact List.subset_cons_self _ _
      simp only [List.mem_append] at h1
      rcases h1 with hmem | hmem
      · have := h2 hmem
        simp only [List.mem_cons] at this
        rcases this with rfl | hmem2
        · simp
        · simp [hmem2]
      · simp only [List.filterMap_cons, id, List.map_cons]
        simp at hmem ⊢
        tauto

theorem scanBlock_dups_subset (cv : ChainView) (l : List (Option BlockTx)) (r : Int) :
    (scanBlock cv l r).setDuplicate ⊆ (l.filterMap id).map (·.hash) := by
  have := foldl_dups_subset cv l ⟨[], [], [], r⟩
  simpa [scanBlock] using this

theorem scanBlock_cons_middle (cv : ChainView) (l1 l2 : List (Option BlockTx))
    (t : BlockTx) (r : Int) :
    scanBlock cv (l1 ++ some t :: l2) r =
      l2.foldl (scanStep cv) (scanTx cv (scanBlock cv l1 r) t) := by
  rw [scanBlock_append]
  rfl

/-- The transaction `t`, placed in the block after prefix `l1`, whose hash is
not in the final duplicate set: both its scans ran cleanly, so each of its
serial hashes is in `setSerials` right after its own scan, none is in the
chain, and none was in the set before its scan; same for pubcoins. -/
theorem scanBlock_clean_tx_facts (cv : ChainView) (l1 l2 : List (Option BlockTx))
    (t : BlockTx) (r : Int)
    (h : t.hash ∉ (scanBlock cv (l1 ++ some t :: l2) r).setDuplicate) :
    (∀ s ∈ txSerialList t, s ∈ (scanBlock cv (l1 ++ [some t]) r).setSerials ∧
        cv.serialInChain s = false ∧ s ∉ (scanBlock cv l1 r).setSerials) ∧
    (∀ p ∈ txPubcoinList t, p ∈ (scanBlock cv (l1 ++ [some t]) r).setPubcoins ∧
        cv.pubcoinInChain p = false ∧ p ∉ (scanBlock cv l1 r).setPubcoins) ∧
    t.hash ∉ (scanTx cv (scanBlock cv l1 r) t).setDuplicate := by
  have hle : ScanLE (scanTx cv (scanBlock cv l1 r) t)
      (scanBlock cv (l1 ++ some t :: l2) r) := by
    rw [scanBlock_cons_middle]
    exact foldl_scanStep_le cv l2 _
  have hnd : t.hash ∉ (scanTx cv (scanBlock cv l1 r) t).setDuplicate :=
    fun hmem => h (hle.2.2 hmem)
  have hclean := scanTx_clean_facts cv (scanBlock cv l1 r) t hnd
  have hsnoc : scanBlock cv (l1 ++ [some t]) r = scanTx cv (scanBlock cv l1 r) t := by
    rw [scanBlock_snoc]
    rfl
  refine ⟨fun s hs => ?_, fun p hp => ?_, hnd⟩
  · obtain ⟨h1, h2, h3⟩ := hclean.1 s hs
    exact ⟨by rw [hsnoc]; exact h1, h2, h3⟩
  · obtain ⟨h1, h2, h3⟩ := hclean.2.1 p hp
    exact ⟨by rw [hsnoc]; exact h1, h2, h3⟩

/-- A transaction placed after a prefix whose `setSerials` already holds one
of its serial hashes ends in the final duplicate set. -/
theorem scanBlock_dup_of_serial_hit (cv : ChainView) (l1 l2 : List (Option BlockTx))
    (t : BlockTx) (r : Int) (s : Nat)
    (hs : s ∈ txSerialList t) (hacc : s ∈ (scanBlock cv l1 r).setSerials) :
    t.hash ∈ (scanBlock cv (l1 ++ some t :: l2) r).setDuplicate := by
  have hle : ScanLE (scanTx cv (scanBlock cv l1 r) t)
      (scanBlock cv (l1 ++ some t :: l2) r) := by
    rw [scanBlock_cons_middle]
    exact foldl_scanStep_le cv l2 _
  exact hle.2.2 (scanTx_dup_of_serial_hit cv _ t s hs hacc)

/-- Pubcoin analogue of `scanBlock_dup_of_serial_hit`. -/
theorem scanBlock_dup_of_pubcoin_hit (cv : ChainView) (l1 l2 : List (Option BlockTx))
    (t : BlockTx) (r : Int) (p : Nat)
    (hp : p ∈ txPubcoinList t) (hacc : p ∈ (scanBlock cv l1 r).setPubcoins) :
    t.hash ∈ (scanBlock cv (l1 ++ some t :: l2) r).setDuplicate := by
  have hle : ScanLE (scanTx cv (scanBlock cv l1 r) t)
      (scanBlock cv (l1 ++ some t :: l2) r) := by
    rw [scanBlock_cons_middle]
    exact foldl_scanStep_le cv l2 _
  exact hle.2.2 (scanTx_dup_of_pubcoin_hit cv _ t p hp hacc)

/-! ## Decomposition helpers for the rebuilt block -/

theorem sublist_pair_decomp {α : Type} {a b : α} {l : List α} (h : List.Sublist [a, b] l) :
    ∃ l1 l2 l3, l = l1 ++ a :: (l2 ++ b :: l3) := by
  induction l with
  | nil => cases h
  | cons x t ih =>
    cases h
    case cons h1 =>
      obtain ⟨l1, l2, l3, rfl⟩ := ih h1
      exact ⟨x :: l1, l2, l3, rfl⟩
    case cons₂ h1 =>
      obtain ⟨m1, m2, rfl⟩ := List.append_of_mem (List.singleton_sublist.mp h1)
      exact ⟨[], m1, m2, rfl⟩

theorem rebuild_pair_decomp (dups : List Nat) (vtx m1 m2 m3 : List (Option BlockTx))
    (o1 o2 : Option BlockTx)
    (h : rebuildVtx dups vtx = m1 ++ o1 :: (m2 ++ o2 :: m3)) :
    ∃ l1 l2 l3, vtx = l1 ++ o1 :: (l2 ++ o2 :: l3) := by
  have h2 : List.Sublist [o2] (m2 ++ o2 :: m3) := List.singleton_sublist.mpr (by simp)
  have h3 : List.Sublist [o1, o2] (o1 :: (m2 ++ o2 :: m3)) := List.Sublist.cons₂ _ h2
  have h1 : List.Sublist [o1, o2] (m1 ++ o1 :: (m2 ++ o2 :: m3)) :=
    h3.trans (List.sublist_append_right m1 _)
  have hfil : List.Sublist (rebuildVtx dups vtx) vtx := List.filter_sublist vtx
  rw [h] at hfil
  exact sublist_pair_decomp (h1.trans hfil)

/-- Facts carried by membership in the rebuilt block: the transaction was in
the original body, is not in the duplicate set, and passes the input test. -/
theorem mem_rebuild_facts (dups : List Nat) (vtx : List (Option BlockTx)) (t : BlockTx)
    (h : some t ∈ rebuildVtx dups vtx) :
    some t ∈ vtx ∧ t.hash ∉ dups ∧
      (t.isZerocoinSpend || t.anonInput || t.haveInputs) = true := by
  have h1 := List.mem_of_mem_filter h
  have h2 := List.of_mem_filter h
  simp only [Bool.and_eq_true, decide_eq_true_eq] at h2
  exact ⟨h1, h2.1, h2.2⟩

theorem mem_rebuild_of (dups : List Nat) (vtx : List (Option BlockTx)) (t : BlockTx)
    (hv : some t ∈ vtx) (hnd : t.hash ∉ dups)
    (hkeep : (t.isZerocoinSpend || t.anonInput || t.haveInputs) = true) :
    some t ∈ rebuildVtx dups vtx := by
  refine List.mem_filter.mpr ⟨hv, ?_⟩
  simp only [Bool.and_eq_true, decide_eq_true_eq]
  exact ⟨hnd, hkeep⟩

theorem mem_evicted_of (dups : List Nat) (vtx : List (Option BlockTx)) (t : BlockTx)
    (hv : some t ∈ vtx) (hd : t.hash ∈ dups) : t.hash ∈ evictedHashes dups vtx := by
  refine List.mem_filterMap.mpr ⟨some t, hv, ?_⟩
  simp [hd]

/-! ## Coinbase construction (CreateNewBlock, miner.cpp lines 300-373)

`coinbaseTx.vpout` is a vector of output pointers: `resize` fills new slots
with null pointers, modelled as `none`; `vpout[i] = out` is `List.set`.
The default `CTxOutStandard` is modelled with value 0 and the empty script
(script 0); the source then overwrites value and script on every path that
leaves the slot in the returned transaction. -/

def defaultStandardOutput : TxOutput := ⟨true, 0, 0⟩

def buildCoinbaseOutputs (fProofOfStake : Bool)
    (nBlockReward nNetworkReward nFounderPayment nLabPayment nBudgetPayment : Int)
    (minerScript budgetScript labScript founderScript : Nat) : List (Option TxOutput) :=
  let n : Nat :=
    if nBudgetPayment > 0 ∧ nFounderPayment > 0 then (if fProofOfStake then 3 else 4)
    else if nBudgetPayment > 0 then (if fProofOfStake then 2 else 3)
    else 1
  let v : List (Option TxOutput) := List.replicate n none
  let v := v.set 0 (some defaultStandardOutput)
  let v :=
    if !fProofOfStake then
      v.set 0 (some ⟨true, minerScript, nBlockReward + nNetworkReward⟩)
    else v
  let v :=
    if nBudgetPayment ≠ 0 then
      let v := v.set (if fProofOfStake then 0 else 1) (some ⟨true, budgetScript, nBudgetPayment⟩)
      let v := v.set (if fProofOfStake then 1 else 2) (some ⟨true, labScript, nLabPayment⟩)
      if nFounderPayment ≠ 0 then
        v.set (if fProofOfStake then 2 else 3) (some ⟨true, founderScript, nFounderPayment⟩)
      else v
    else v
  if fProofOfStake ∧ nBudgetPayment = 0 then
    v.set 0 (some ⟨true, 0, 0⟩)
  else v

/-- Modelled from the spec: the coinbase output schema table of claim C2
(spec section 4.3), a function of the triple (isPoS, budget>0, founder>0)
alone, written directly from the words of the spec to compare with
`buildCoinbaseOutputs`. -/
def coinbaseSchemaSpec (fProofOfStake budgetPos founderPos : Bool)
    (nBlockReward nNetworkReward nFounderPayment nLabPayment nBudgetPayment : Int)
    (minerScript budgetScript labScript founderScript : Nat) : List (Option TxOutput) :=
  let miner : Option TxOutput := some ⟨true, minerScript, nBlockReward + nNetworkReward⟩
  let budget : Option TxOutput := some ⟨true, budgetScript, nBudgetPayment⟩
  let lab : Option TxOutput := some ⟨true, labScript, nLabPayment⟩
  let founder : Option TxOutput := some ⟨true, founderScript, nFounderPayment⟩
  match fProofOfStake, budgetPos, founderPos with
  | false, false, _ => [miner]
  | false, true, false => [miner, budget, lab]
  | false, true, true => [miner, budget, lab, founder]
  | true, false, _ => [some ⟨true, 0, 0⟩]
  | true, true, false => [budget, lab]
  | true, true, true => [budget, lab, founder]

/-! ## Core screening consequences -/

/-- If `t1` is scanned cleanly and a later `t2` carries one of the same
serial hashes, `t2` is marked duplicate. -/
theorem screen_later_dup (cv : ChainView) (l1 l2 l3 : List (Option BlockTx))
    (t1 t2 : BlockTx) (r : Int) (s : Nat)
    (hs1 : s ∈ txSerialList t1) (hs2 : s ∈ txSerialList t2)
    (hnd : t1.hash ∉ (scanBlock cv (l1 ++ some t1 :: (l2 ++ some t2 :: l3)) r).setDuplicate) :
    t2.hash ∈ (scanBlock cv (l1 ++ some t1 :: (l2 ++ some t2 :: l3)) r).setDuplicate := by
  have hclean := scanBlock_clean_tx_facts cv l1 (l2 ++ some t2 :: l3) t1 r hnd
  obtain ⟨hmem, -, -⟩ := hclean.1 s hs1
  have hpre : s ∈ (scanBlock cv ((l1 ++ [some t1]) ++ l2) r).setSerials :=
    (scanBlock_prefix_le cv (l1 ++ [some t1]) l2 r).1 hmem
  have hdup := scanBlock_dup_of_serial_hit cv ((l1 ++ [some t1]) ++ l2) l3 t2 r s hs2 hpre
  have hassoc : ((l1 ++ [some t1]) ++ l2) ++ some t2 :: l3 =
      l1 ++ some t1 :: (l2 ++ some t2 :: l3) := by
    simp [List.append_assoc]
  rwa [hassoc] at hdup

/-- Pubcoin analogue of `screen_later_dup`. -/
theorem screen_later_dup_pubcoin (cv : ChainView) (l1 l2 l3 : List (Option BlockTx))
    (t1 t2 : BlockTx) (r : Int) (p : Nat)
    (hp1 : p ∈ txPubcoinList t1) (hp2 : p ∈ txPubcoinList t2)
    (hnd : t1.hash ∉ (scanBlock cv (l1 ++ some t1 :: (l2 ++ some t2 :: l3)) r).setDuplicate) :
    t2.hash ∈ (scanBlock cv (l1 ++ some t1 :: (l2 ++ some t2 :: l3)) r).setDuplicate := by
  have hclean := scanBlock_clean_tx_facts cv l1 (l2 ++ some t2 :: l3) t1 r hnd
  obtain ⟨hmem, -, -⟩ := hclean.2.1 p hp1
  have hpre : p ∈ (scanBlock cv ((l1 ++ [some t1]) ++ l2) r).setPubcoins :=
    (scanBlock_prefix_le cv (l1 ++ [some t1]) l2 r).2.1 hmem
  have hdup := scanBlock_dup_of_pubcoin_hit cv ((l1 ++ [some t1]) ++ l2) l3 t2 r p hp2 hpre
  have hassoc : ((l1 ++ [some t1]) ++ l2) ++ some t2 :: l3 =
      l1 ++ some t1 :: (l2 ++ some t2 :: l3) := by
    simp [List.append_assoc]
  rwa [hassoc] at hdup

/-- Two ways to split a list at a distinguished element: the elements
coincide, or one split point lies strictly inside the prefix of the other. -/
theorem eq_append_cons_cases {α : Type} (l1 r1 a2 b2 : List α) (x u : α)
    (h2 : l1 ++ x :: r1 = a2 ++ u :: b2) :
    (a2 = l1 ∧ u = x ∧ b2 = r1) ∨ (∃ c, l1 = a2 ++ u :: c) ∨
      (∃ c, a2 = l1 ++ x :: c) := by
  rcases List.append_eq_append_iff.mp h2 with ⟨w, hw1, hw2⟩ | ⟨w, hw1, hw2⟩
  · cases w with
    | nil =>
      simp only [List.append_nil] at hw1
      injection hw2 with hx hr
      exact Or.inl ⟨hw1, hx.symm, hr.symm⟩
    | cons c cs =>
      injection hw2 with hx hr
      subst hx
      exact Or.inr (Or.inr ⟨cs, by rw [hw1]⟩)
  · cases w with
    | nil =>
      simp only [List.append_nil] at hw1
      injection hw2 with hu hb
      exact Or.inl ⟨hw1.symm, hu, hb⟩
    | cons c cs =>
      injection hw2 with hu hb
      subst hu
      exact Or.inr (Or.inl ⟨cs, by rw [hw1]⟩)

/-! ## Claim theorems on the privacy screening -/

/-- C3: for the screening of CreateNewBlock (miner.cpp lines 209-298):
(i) no two transactions of the rebuilt block share a serial hash and (ii) no
two share a pubcoin hash; (iii) no serial or pubcoin hash of a rebuilt
transaction is already recorded in the chain below the template height;
(iv) every transaction marked duplicate is removed from the block and its
hash is handed to mempool.removeRecursive; (v) of two transactions carrying
the same serial hash, the one placed first stays in the rebuilt block while
the later one is marked duplicate, evicted from the mempool and removed. -/
theorem createNewBlock_privacy_screening (cv : ChainView)
    (vtx : List (Option BlockTx)) (r : Int) :
    (∀ m1 m2 m3 t1 t2, rebuildVtx (scanBlock cv vtx r).setDuplicate vtx =
        m1 ++ some t1 :: (m2 ++ some t2 :: m3) →
      ∀ s, s ∈ txSerialList t1 → s ∈ txSerialList t2 → False) ∧
    (∀ m1 m2 m3 t1 t2, rebuildVtx (scanBlock cv vtx r).setDuplicate vtx =
        m1 ++ some t1 :: (m2 ++ some t2 :: m3) →
      ∀ p, p ∈ txPubcoinList t1 → p ∈ txPubcoinList t2 → False) ∧
    (∀ t, some t ∈ rebuildVtx (scanBlock cv vtx r).setDuplicate vtx →
      (∀ s ∈ txSerialList t, cv.serialInChain s = false) ∧
      (∀ p ∈ txPubcoinList t, cv.pubcoinInChain p = false)) ∧
    (∀ t, some t ∈ vtx → t.hash ∈ (scanBlock cv vtx r).setDuplicate →
      (∀ ot ∈ rebuildVtx (scanBlock cv vtx r).setDuplicate vtx, ∀ u, ot = some u →
        u.hash ≠ t.hash) ∧
      t.hash ∈ evictedHashes (scanBlock cv vtx r).setDuplicate vtx) ∧
    (∀ l1 l2 l3 t1 t2 s, vtx = l1 ++ some t1 :: (l2 ++ some t2 :: l3) →
      s ∈ txSerialList t1 → s ∈ txSerialList t2 →
      t1.hash ∉ (scanBlock cv vtx r).setDuplicate →
      some t1 ∈ rebuildVtx (scanBlock cv vtx r).setDuplicate vtx ∧
      t2.hash ∈ (scanBlock cv vtx r).setDuplicate ∧
      t2.hash ∈ evictedHashes (scanBlock cv vtx r).setDuplicate vtx ∧
      (∀ ot ∈ rebuildVtx (scanBlock cv vtx r).setDuplicate vtx, ∀ u, ot = some u →
        u.hash ≠ t2.hash)) := by
  refine ⟨?_, ?_, ?_, ?_, ?_⟩
  · intro m1 m2 m3 t1 t2 hdec s hs1 hs2
    obtain ⟨-, hnd1, -⟩ := mem_rebuild_facts _ _ t1 (by rw [hdec]; simp)
    obtain ⟨-, hnd2, -⟩ := mem_rebuild_facts _ _ t2 (by rw [hdec]; simp)
    obtain ⟨l1, l2, l3, hveq⟩ := rebuild_pair_decomp _ vtx m1 m2 m3 _ _ hdec
    apply hnd2
    rw [hveq] at hnd1 ⊢
    exact screen_later_dup cv l1 l2 l3 t1 t2 r s hs1 hs2 hnd1
  · intro m1 m2 m3 t1 t2 hdec p hp1 hp2
    obtain ⟨-, hnd1, -⟩ := mem_rebuild_facts _ _ t1 (by rw [hdec]; simp)
    obtain ⟨-, hnd2, -⟩ := mem_rebuild_facts _ _ t2 (by rw [hdec]; simp)
    obtain ⟨l1, l2, l3, hveq⟩ := rebuild_pair_decomp _ vtx m1 m2 m3 _ _ hdec
    apply hnd2
    rw [hveq] at hnd1 ⊢
    exact screen_later_dup_pubcoin cv l1 l2 l3 t1 t2 r p hp1 hp2 hnd1
  · intro t hmem
    obtain ⟨hv, hnd, -⟩ := mem_rebuild_facts _ _ t hmem
    obtain ⟨u1, u2, hveq⟩ := List.append_of_mem hv
    rw [hveq] at hnd
    have hclean := scanBlock_clean_tx_facts cv u1 u2 t r hnd
    exact ⟨fun s hs => (hclean.1 s hs).2.1, fun p hp => (hclean.2.1 p hp).2.1⟩
  · intro t hv hd
    refine ⟨?_, mem_evicted_of _ vtx t hv hd⟩
    intro ot hot u hu heq
    obtain ⟨-, hnd, -⟩ := mem_rebuild_facts _ _ u (hu ▸ hot)
    exact hnd (heq ▸ hd)
  · intro l1 l2 l3 t1 t2 s hveq hs1 hs2 hnd1
    have hspend1 : t1.isZerocoinSpend = true := by
      by_contra hns
      rw [Bool.not_eq_true] at hns
      simp [txSerialList, hns] at hs1
    have hdup2 : t2.hash ∈ (scanBlock cv vtx r).setDuplicate := by
      rw [hveq] at hnd1 ⊢
      exact screen_later_dup cv l1 l2 l3 t1 t2 r s hs1 hs2 hnd1
    have hv1 : some t1 ∈ vtx := by rw [hveq]; simp
    have hv2 : some t2 ∈ vtx := by rw [hveq]; simp
    refine ⟨mem_rebuild_of _ vtx t1 hv1 hnd1 (by simp [hspend1]), hdup2,
      mem_evicted_of _ vtx t2 hv2 hdup2, ?_⟩
    intro ot hot u hu heq
    obtain ⟨-, hnd, -⟩ := mem_rebuild_facts _ _ u (hu ▸ hot)
    exact hnd (heq ▸ hdup2)

/-- C10: transaction x is marked duplicate after emplacing serial hash s
(s is in the set right after the scan of x but not before it). Then s stays
in `setSerials` for the rest of the scan; a later transaction y carrying s
is marked duplicate, evicted from the mempool and removed from the block,
even though x itself is removed; no transaction of the rebuilt block carries
s; and every pubcoin hash present after the scan of x persists the same way,
marking any pubcoin-sharing later transaction as duplicate. -/
theorem duplicate_leftover_hashes (cv : ChainView)
    (l1 l2 l3 : List (Option BlockTx)) (x y : BlockTx) (r : Int) (s : Nat)
    (hxdup : x.hash ∈ (scanBlock cv (l1 ++ some x :: (l2 ++ some y :: l3)) r).setDuplicate)
    (hsx : s ∈ txSerialList x)
    (hafter : s ∈ (scanBlock cv (l1 ++ [some x]) r).setSerials)
    (hbefore : s ∉ (scanBlock cv l1 r).setSerials)
    (hsy : s ∈ txSerialList y) :
    s ∈ (scanBlock cv (l1 ++ some x :: (l2 ++ some y :: l3)) r).setSerials ∧
    y.hash ∈ (scanBlock cv (l1 ++ some x :: (l2 ++ some y :: l3)) r).setDuplicate ∧
    y.hash ∈ evictedHashes
      ((scanBlock cv (l1 ++ some x :: (l2 ++ some y :: l3)) r).setDuplicate)
      (l1 ++ some x :: (l2 ++ some y :: l3)) ∧
    x.hash ∈ evictedHashes
      ((scanBlock cv (l1 ++ some x :: (l2 ++ some y :: l3)) r).setDuplicate)
      (l1 ++ some x :: (l2 ++ some y :: l3)) ∧
    (∀ ot ∈ rebuildVtx
        ((scanBlock cv (l1 ++ some x :: (l2 ++ some y :: l3)) r).setDuplicate)
        (l1 ++ some x :: (l2 ++ some y :: l3)), ∀ u, ot = some u →
      u.hash ≠ y.hash ∧ u.hash ≠ x.hash ∧ s ∉ txSerialList u) ∧
    (∀ p, p ∈ (scanBlock cv (l1 ++ [some x]) r).setPubcoins →
      p ∈ (scanBlock cv (l1 ++ some x :: (l2 ++ some y :: l3)) r).setPubcoins ∧
      (p ∈ txPubcoinList y →
        y.hash ∈ (scanBlock cv (l1 ++ some x :: (l2 ++ some y :: l3)) r).setDuplicate)) := by
  have hassoc1 : (l1 ++ [some x]) ++ (l2 ++ some y :: l3) =
      l1 ++ some x :: (l2 ++ some y :: l3) := by
    simp [List.append_assoc]
  have hassoc2 : ((l1 ++ [some x]) ++ l2) ++ some y :: l3 =
      l1 ++ some x :: (l2 ++ some y :: l3) := by
    simp [List.append_assoc]
  have hpersist : s ∈ (scanBlock cv (l1 ++ some x :: (l2 ++ some y :: l3)) r).setSerials := by
    have := (scanBlock_prefix_le cv (l1 ++ [some x]) (l2 ++ some y :: l3) r).1 hafter
    rwa [hassoc1] at this
  have hpre2 : s ∈ (scanBlock cv ((l1 ++ [some x]) ++ l2) r).setSerials :=
    (scanBlock_prefix_le cv (l1 ++ [some x]) l2 r).1 hafter
  have hydup : y.hash ∈ (scanBlock cv (l1 ++ some x :: (l2 ++ some y :: l3)) r).setDuplicate := by
    have := scanBlock_dup_of_serial_hit cv ((l1 ++ [some x]) ++ l2) l3 y r s hsy hpre2
    rwa [hassoc2] at this
  have hvx : some x ∈ l1 ++ some x :: (l2 ++ some y :: l3) := by simp
  have hvy : some y ∈ l1 ++ some x :: (l2 ++ some y :: l3) := by simp
  refine ⟨hpersist, hydup, mem_evicted_of _ _ y hvy hydup, mem_evicted_of _ _ x hvx hxdup,
    ?_, ?_⟩
  · intro ot hot u hu
    obtain ⟨hvmem, hnd, -⟩ := mem_rebuild_facts _ _ u (hu ▸ hot)
    refine ⟨fun heq => hnd (heq ▸ hydup), fun heq => hnd (heq ▸ hxdup), ?_⟩
    intro hsu
    obtain ⟨a2, b2, hdec2⟩ := List.append_of_mem hvmem
    rcases eq_append_cons_cases l1 (l2 ++ some y :: l3) a2 b2 (some x) (some u) hdec2 with
      ⟨-, hux, -⟩ | ⟨c, hc⟩ | ⟨c, hc⟩
    · injection hux with hux2
      exact hnd (hux2 ▸ hxdup)
    · rw [hdec2] at hnd
      have hcleanu := scanBlock_clean_tx_facts cv a2 b2 u r hnd
      obtain ⟨hmemu, -, -⟩ := hcleanu.1 s hsu
      apply hbefore
      rw [hc]
      have := (scanBlock_prefix_le cv (a2 ++ [some u]) c r).1 hmemu
      rwa [List.append_assoc, List.singleton_append] at this
    · rw [hdec2] at hnd
      have hcleanu := scanBlock_clean_tx_facts cv a2 b2 u r hnd
      have hnotinit := (hcleanu.1 s hsu).2.2
      apply hnotinit
      rw [hc]
      have := (scanBlock_prefix_le cv (l1 ++ [some x]) c r).1 hafter
      rwa [List.append_assoc, List.singleton_append] at this
  · intro p hp
    constructor
    · have := (scanBlock_prefix_le cv (l1 ++ [some x]) (l2 ++ some y :: l3) r).2.1 hp
      rwa [hassoc1] at this
    · intro hpy
      have hpre2p : p ∈ (scanBlock cv ((l1 ++ [some x]) ++ l2) r).setPubcoins :=
        (scanBlock_prefix_le cv (l1 ++ [some x]) l2 r).2.1 hp
      have := scanBlock_dup_of_pubcoin_hit cv ((l1 ++ [some x]) ++ l2) l3 y r p hpy hpre2p
      rwa [hassoc2] at this

def cvC10 : ChainView := ⟨fun h => h == 7, fun _ => false, 99⟩

def xC10 : BlockTx := ⟨1, true, false, [5, 7], [], false, false, []⟩

def yC10 : BlockTx := ⟨2, true, false, [5], [], false, false, []⟩

/-- Witness for C10: x spends serials 5 and 7; serial 7 is already recorded
in the chain, so x is marked duplicate after emplacing 5; y spends serial 5
and is marked duplicate and evicted although no surviving transaction
carries serial 5. -/
theorem duplicate_leftover_hashes_witness :
    yC10.hash ∈ (scanBlock cvC10 ([] ++ some xC10 :: ([] ++ some yC10 :: [])) 0).setDuplicate ∧
    yC10.hash ∈ evictedHashes
      ((scanBlock cvC10 ([] ++ some xC10 :: ([] ++ some yC10 :: [])) 0).setDuplicate)
      ([] ++ some xC10 :: ([] ++ some yC10 :: [])) ∧
    5 ∈ (scanBlock cvC10 ([] ++ some xC10 :: ([] ++ some yC10 :: [])) 0).setSerials :=
  have h := duplicate_leftover_hashes cvC10 [] [] [] xC10 yC10 0 5
    (by decide) (by decide) (by decide) (by decide) (by decide)
  ⟨h.2.1, h.2.2.1, h.1⟩

/-! ## The network-reward reserve computed by the scan -/

/-- With pairwise distinct transaction hashes, the final reserve is the
carried reserve plus the contributions of exactly the transactions that pass
the duplicate screen. -/
theorem scanBlock_reserve_eq (cv : ChainView) (vtx : List (Option BlockTx)) (r : Int)
    (hnodup : ((vtx.filterMap id).map (·.hash)).Nodup) :
    (scanBlock cv vtx r).reserve =
      r + (((vtx.filterMap id).filter
          (fun t => decide (t.hash ∉ (scanBlock cv vtx r).setDuplicate))).map
          (rewardContribution cv.rewardScript)).sum := by
  induction vtx using List.reverseRecOn with
  | nil => simp [scanBlock]
  | append_singleton l ot ih =>
    cases ot with
    | none =>
      have hsc : scanBlock cv (l ++ [none]) r = scanBlock cv l r := by
        rw [scanBlock_snoc]
        rfl
      have hnodup2 : ((l.filterMap id).map (·.hash)).Nodup := by
        simpa using hnodup
      rw [hsc]
      have := ih hnodup2
      simpa using this
    | some t =>
      have hsc : scanBlock cv (l ++ [some t]) r = scanTx cv (scanBlock cv l r) t := by
        rw [scanBlock_snoc]
        rfl
      have hfm : (l ++ [some t]).filterMap id = l.filterMap id ++ [t] := by
        simp
      have hnodup2 : ((l.filterMap id).map (·.hash)).Nodup := by
        rw [hfm] at hnodup
        simp only [List.map_append, List.nodup_append] at hnodup
        exact hnodup.1
      have hfresh : t.hash ∉ (l.filterMap id).map (·.hash) := by
        rw [hfm] at hnodup
        simp only [List.map_append, List.nodup_append] at hnodup
        intro hmem
        exact hnodup.2.2 hmem (by simp)
      have ihl := ih hnodup2
      rcases scanTx_cases cv (scanBlock cv l r) t with ⟨hd, hr⟩ | ⟨hd, hr⟩
      · -- t is marked duplicate: it does not contribute, older entries keep
        -- their screening status since their hash differs from t.hash
        have hfilter : ∀ u ∈ l.filterMap id,
            (decide (u.hash ∉ (scanBlock cv (l ++ [some t]) r).setDuplicate)) =
              (decide (u.hash ∉ (scanBlock cv l r).setDuplicate)) := by
          intro u hu
          have hne : u.hash ≠ t.hash := by
            intro he
            exact hfresh (he ▸ List.mem_map_of_mem _ hu)
          rw [hsc, hd]
          simp [hne]
        have htdup : t.hash ∈ (scanBlock cv (l ++ [some t]) r).setDuplicate := by
          rw [hsc, hd]
          simp
        rw [hsc, hr, ihl, hfm]
        rw [List.filter_append]
        have h1 : List.filter
            (fun u => decide (u.hash ∉ (scanBlock cv (l ++ [some t]) r).setDuplicate))
            (l.filterMap id) =
            List.filter (fun u => decide (u.hash ∉ (scanBlock cv l r).setDuplicate))
            (l.filterMap id) := List.filter_congr hfilter
        have h2 : List.filter
            (fun u => decide (u.hash ∉ (scanBlock cv (l ++ [some t]) r).setDuplicate))
            [t] = [] := by
          rw [hsc] at htdup ⊢
          simp [htdup]
        rw [hsc] at h1 h2
        rw [h1, h2]
        simp
      · -- t is clean: it contributes, and the duplicate set is unchanged
        have hfilter : ∀ u ∈ l.filterMap id,
            (decide (u.hash ∉ (scanBlock cv (l ++ [some t]) r).setDuplicate)) =
              (decide (u.hash ∉ (scanBlock cv l r).setDuplicate)) := by
          intro u hu
          rw [hsc, hd]
        have htclean : t.hash ∉ (scanBlock cv (l ++ [some t]) r).setDuplicate := by
          rw [hsc, hd]
          intro hmem
          exact hfresh (scanBlock_dups_subset cv l r hmem)
        rw [hsc, hr, ihl, hfm]
        rw [List.filter_append]
        have h1 : List.filter
            (fun u => decide (u.hash ∉ (scanBlock cv (l ++ [some t]) r).setDuplicate))
            (l.filterMap id) =
            List.filter (fun u => decide (u.hash ∉ (scanBlock cv l r).setDuplicate))
            (l.filterMap id) := List.filter_congr hfilter
        have h2 : List.filter
            (fun u => decide (u.hash ∉ (scanBlock cv (l ++ [some t]) r).setDuplicate))
            [t] = [t] := by
          rw [hsc] at htclean ⊢
          simp [htclean]
        rw [hsc] at h1 h2
        rw [h1, h2]
        simp [add_assoc]

/-- The conditional at miner.cpp line 300 is exactly min. -/
theorem cappedNetworkReward_eq_min (maxNetworkReward reserve : Int) :
    cappedNetworkReward maxNetworkReward reserve = min reserve maxNetworkReward := by
  unfold cappedNetworkReward
  by_cases h : reserve > maxNetworkReward
  · rw [if_pos h, min_eq_right (le_of_lt h)]
  · rw [if_neg h, min_eq_left (le_of_not_lt h)]

/-! ## The coinbase output schema -/

/-- The built coinbase output list agrees with the schema table for the
nonnegative reward amounts the budget schedule produces. -/
theorem coinbase_outputs_eq_schema (fProofOfStake : Bool)
    (nBlockReward nNetworkReward nFounderPayment nLabPayment nBudgetPayment : Int)
    (minerScript budgetScript labScript founderScript : Nat)
    (hb : 0 ≤ nBudgetPayment) (hf : 0 ≤ nFounderPayment) :
    buildCoinbaseOutputs fProofOfStake nBlockReward nNetworkReward nFounderPayment
        nLabPayment nBudgetPayment minerScript budgetScript labScript founderScript =
      coinbaseSchemaSpec fProofOfStake (decide (0 < nBudgetPayment))
        (decide (0 < nFounderPayment)) nBlockReward nNetworkReward nFounderPayment
        nLabPayment nBudgetPayment minerScript budgetScript labScript founderScript := by
  rcases hb.lt_or_eq with hbpos | hbeq
  · rcases hf.lt_or_eq with hfpos | hfeq
    · cases fProofOfStake <;>
        simp [buildCoinbaseOutputs, coinbaseSchemaSpec, hbpos, hfpos, hbpos.ne', hfpos.ne',
          defaultStandardOutput]
    · cases fProofOfStake <;>
        simp [buildCoinbaseOutputs, coinbaseSchemaSpec, hbpos, hbpos.ne', ← hfeq,
          defaultStandardOutput]
  · rcases hf.lt_or_eq with hfpos | hfeq
    · cases fProofOfStake <;>
        simp [buildCoinbaseOutputs, coinbaseSchemaSpec, ← hbeq, hfpos, hfpos.ne',
          defaultStandardOutput]
    · cases fProofOfStake <;>
        simp [buildCoinbaseOutputs, coinbaseSchemaSpec, ← hbeq, ← hfeq,
          defaultStandardOutput]

/-- In proof-of-work the first coinbase output is always the miner output,
worth blockReward + networkReward. -/
theorem buildCoinbase_pow_head (nBlockReward nNetworkReward nFounderPayment nLabPayment
    nBudgetPayment : Int) (minerScript budgetScript labScript founderScript : Nat)
    (hb : 0 ≤ nBudgetPayment) (hf : 0 ≤ nFounderPayment) :
    (buildCoinbaseOutputs false nBlockReward nNetworkReward nFounderPayment nLabPayment
        nBudgetPayment minerScript budgetScript labScript founderScript).head? =
      some (some ⟨true, minerScript, nBlockReward + nNetworkReward⟩) := by
  rw [coinbase_outputs_eq_schema false nBlockReward nNetworkReward nFounderPayment
    nLabPayment nBudgetPayment minerScript budgetScript labScript founderScript hb hf]
  cases decide (0 < nBudgetPayment) <;> cases decide (0 < nFounderPayment) <;>
    simp [coinbaseSchemaSpec]

/-- C2: the coinbase output list of CreateNewBlock (miner.cpp lines 300-373)
is determined by the triple (isPoS, budgetPayment>0, founderPayment>0)
exactly per the schema table: PoW gives [miner], [miner, budget, lab] or
[miner, budget, lab, founder], PoS gives [empty(0, empty script)],
[budget, lab] or [budget, lab, founder]; the PoW miner output is worth
blockReward + networkReward. -/
theorem coinbase_output_schema (fProofOfStake : Bool)
    (nBlockReward nNetworkReward nFounderPayment nLabPayment nBudgetPayment : Int)
    (minerScript budgetScript labScript founderScript : Nat)
    (hb : 0 ≤ nBudgetPayment) (hf : 0 ≤ nFounderPayment) :
    buildCoinbaseOutputs fProofOfStake nBlockReward nNetworkReward nFounderPayment
        nLabPayment nBudgetPayment minerScript budgetScript labScript founderScript =
      coinbaseSchemaSpec fProofOfStake (decide (0 < nBudgetPayment))
        (decide (0 < nFounderPayment)) nBlockReward nNetworkReward nFounderPayment
        nLabPayment nBudgetPayment minerScript budgetScript labScript founderScript :=
  coinbase_outputs_eq_schema fProofOfStake nBlockReward nNetworkReward nFounderPayment
    nLabPayment nBudgetPayment minerScript budgetScript labScript founderScript hb hf

/-- Witness for C2 at a PoW template with positive budget and founder
payments. -/
theorem coinbase_output_schema_witness :
    buildCoinbaseOutputs false 10 5 3 2 4 7 8 9 11 =
      coinbaseSchemaSpec false (decide ((0 : Int) < 4)) (decide ((0 : Int) < 3))
        10 5 3 2 4 7 8 9 11 :=
  coinbase_output_schema false 10 5 3 2 4 7 8 9 11 (by decide) (by decide)

/-- C4: the network reward paid in the coinbase equals min(R, maximum),
where R is the carried reserve of the previous block plus the values of the
standard reward-address outputs of the transactions that pass the duplicate
screen; in PoW the miner output is worth blockReward plus that capped
amount. -/
theorem network_reward_reserve (cv : ChainView) (vtx : List (Option BlockTx))
    (r maxNetworkReward nBlockReward nFounderPayment nLabPayment nBudgetPayment : Int)
    (minerScript budgetScript labScript founderScript : Nat)
    (hnodup : ((vtx.filterMap id).map (·.hash)).Nodup)
    (hb : 0 ≤ nBudgetPayment) (hf : 0 ≤ nFounderPayment) :
    (scanBlock cv vtx r).reserve =
      r + (((vtx.filterMap id).filter
          (fun t => decide (t.hash ∉ (scanBlock cv vtx r).setDuplicate))).map
          (rewardContribution cv.rewardScript)).sum ∧
    cappedNetworkReward maxNetworkReward ((scanBlock cv vtx r).reserve) =
      min ((scanBlock cv vtx r).reserve) maxNetworkReward ∧
    (buildCoinbaseOutputs false nBlockReward
        (cappedNetworkReward maxNetworkReward ((scanBlock cv vtx r).reserve))
        nFounderPayment nLabPayment nBudgetPayment
        minerScript budgetScript labScript founderScript).head? =
      some (some ⟨true, minerScript,
        nBlockReward + cappedNetworkReward maxNetworkReward ((scanBlock cv vtx r).reserve)⟩) :=
  ⟨scanBlock_reserve_eq cv vtx r hnodup,
   cappedNetworkReward_eq_min maxNetworkReward _,
   buildCoinbase_pow_head nBlockReward _ nFounderPayment nLabPayment nBudgetPayment
     minerScript budgetScript labScript founderScript hb hf⟩

def cvC4 : ChainView := ⟨fun _ => false, fun _ => false, 50⟩

def txC4 : BlockTx :=
  ⟨3, false, false, [], [], false, true, [⟨true, 50, 100⟩, ⟨false, 50, 7⟩, ⟨true, 51, 9⟩]⟩

/-- Witness for C4: one clean transaction contributes 100 to the reserve
address; the carried reserve is 40 and the cap is 120. -/
theorem network_reward_reserve_witness :
    cappedNetworkReward 120 ((scanBlock cvC4 [none, some txC4] 40).reserve) =
      min ((scanBlock cvC4 [none, some txC4] 40).reserve) 120 ∧
    (buildCoinbaseOutputs false 25
        (cappedNetworkReward 120 ((scanBlock cvC4 [none, some txC4] 40).reserve))
        1 2 3 7 8 9 11).head? =
      some (some ⟨true, 7,
        25 + cappedNetworkReward 120 ((scanBlock cvC4 [none, some txC4] 40).reserve)⟩) :=
  have h := network_reward_reserve cvC4 [none, some txC4] 40 120 25 1 2 3 7 8 9 11
    (by decide) (by decide) (by decide)
  ⟨h.2.1, h.2.2⟩

/-- C5: TestPackage (miner.cpp lines 466-474) accepts a package exactly when
both resource inequalities are strict: accumulated weight plus the scaled
package size stays below the weight cap, and accumulated sigop cost plus the
package sigop cost stays below MAX_BLOCK_SIGOPS_COST. -/
theorem testPackage_iff (nBlockWeight nBlockMaxWeight nBlockSigOpsCost
    packageSize packageSigOpsCost : Int) :
    TestPackage nBlockWeight nBlockMaxWeight nBlockSigOpsCost packageSize
        packageSigOpsCost = true ↔
      (nBlockWeight + WITNESS_SCALE_FACTOR * packageSize < nBlockMaxWeight ∧
        nBlockSigOpsCost + packageSigOpsCost < MAX_BLOCK_SIGOPS_COST) := by
  have hm : MAX_BLOCK_SIGOPS_COST = (80000 : Int) := rfl
  unfold TestPackage
  rw [hm]
  by_cases h1 : nBlockWeight + WITNESS_SCALE_FACTOR * packageSize ≥ nBlockMaxWeight
  · rw [if_pos h1]
    simp only [Bool.false_eq_true, false_iff]
    intro hcon
    exact absurd hcon.1 (not_lt.mpr h1)
  · rw [if_neg h1]
    by_cases h2 : nBlockSigOpsCost + packageSigOpsCost ≥ (80000 : Int)
    · rw [if_pos h2]
      simp only [Bool.false_eq_true, false_iff]
      intro hcon
      exact absurd hcon.2 (not_lt.mpr h2)
    · rw [if_neg h2]
      simp only [true_iff]
      exact ⟨lt_of_not_ge h1, lt_of_not_ge h2⟩

/-! ## The mempool view consumed by addPackageTxs (miner.cpp lines 573-701)

A candidate entry carries the cached per-transaction and with-ancestors
aggregates the selection reads (`CTxMemPoolEntry`, external to this
repository, accessed only through the getters named below). The two ordered
views are the `ancestor_score` index of mapTx, given as its iteration order,
and the modified set rebuilt during selection. The ancestor and descendant
enumerations (`CalculateMemPoolAncestors` with no limits,
`CalculateDescendants`) are external collaborators, taken as functions on
transaction ids. -/

structure MemEntry where
  id : Nat
  txSize : Int
  txWeight : Int
  fee : Int
  modifiedFee : Int
  sigOpCost : Int
  sizeWithAncestors : Int
  modFeesWithAncestors : Int
  sigOpCostWithAncestors : Int
  countWithAncestors : Nat
  isFinal : Bool
  hasWitness : Bool
deriving DecidableEq

structure MemPool where
  entries : List MemEntry
  byAncestorScore : List MemEntry
  ancestorsOf : Nat → List Nat
  descendantsOf : Nat → List Nat

/-- An overlay entry of mapModifiedTx: the underlying handle plus adjusted
with-ancestors aggregates (`CTxMemPoolModifiedEntry`). -/
structure ModEntry where
  entry : MemEntry
  nSizeWithAncestors : Int
  nModFeesWithAncestors : Int
  nSigOpCostWithAncestors : Int
deriving DecidableEq

def CTxMemPoolModifiedEntry (e : MemEntry) : ModEntry :=
  ⟨e, e.sizeWithAncestors, e.modFeesWithAncestors, e.sigOpCostWithAncestors⟩

/-- Modelled from the spec (sections 4.2 and 9): the strict
feerate-with-ancestors comparator with the stable hash tie-break
(`CompareTxMemPoolEntryByAncestorFee` of txmempool.h, which is not in this
repository; the source cross-multiplies as doubles, modelled here as exact
integer cross-multiplication). True when the first entry sorts before the
second. -/
def ancScoreBefore (f1 s1 : Int) (h1 : Nat) (f2 s2 : Int) (h2 : Nat) : Bool :=
  if f1 * s2 = f2 * s1 then decide (h1 < h2) else decide (f1 * s2 > f2 * s1)

def pickBetter (b m2 : ModEntry) : ModEntry :=
  if ancScoreBefore m2.nModFeesWithAncestors m2.nSizeWithAncestors m2.entry.id
      b.nModFeesWithAncestors b.nSizeWithAncestors b.entry.id then m2 else b

/-- The head of the ordered modified set
(`mapModifiedTx.get<ancestor_score>().begin()`). -/
def bestMod : List ModEntry → Option ModEntry
  | [] => none
  | m :: ms => some (ms.foldl pickBetter m)

/-- Selection state: the appended template body (`pblock->vtx` past the
dummy coinbase together with the `inBlock` set), the fee/sigop vectors, the
resource accounting counters of the assembler, and the loop-local modified
set, failed set, raw cursor and failure counter. The assembler maintains
`inBlock` as exactly the set of ids appended by AddToBlock, so it is read
off `blockTxs` here. -/
structure SelState where
  blockTxs : List MemEntry
  vTxFees : List Int
  vTxSigOpsCost : List Int
  nBlockWeight : Int
  nBlockSigOpsCost : Int
  nBlockTx : Nat
  nFees : Int
  mapModifiedTx : List ModEntry
  failedTx : List Nat
  rawQueue : List MemEntry
  nConsecutiveFailed : Nat
  nPackagesSelected : Nat
  nDescendantsUpdated : Nat
deriving DecidableEq

def inBlockIds (s : SelState) : List Nat := s.blockTxs.map (·.id)

/-- The assembler options read during selection: the clamped weight cap, the
configured minimum fee rate (stored by the constructor; the gate that would
read it, miner.cpp lines 642-645, is commented out in the source) and the
witness flag. -/
structure AsmParams where
  nBlockMaxWeight : Int
  blockMinFeeRate : Int
  fIncludeWitness : Bool
deriving DecidableEq

/-- `BlockAssembler::SkipMapTxEntry` (miner.cpp lines 546-550). -/
def SkipMapTxEntry (e : MemEntry) (mapModifiedTx : List ModEntry)
    (inBlock failedTx : List Nat) : Bool :=
  mapModifiedTx.any (·.entry.id == e.id) || inBlock.contains e.id ||
    failedTx.contains e.id

/-- `BlockAssembler::TestPackageTransactions` (miner.cpp lines 480-489). -/
def TestPackageTransactions (fIncludeWitness : Bool) (package : List MemEntry) : Bool :=
  package.all fun e => e.isFinal && (fIncludeWitness || !e.hasWitness)

/-- `BlockAssembler::AddToBlock` (miner.cpp lines 491-508). -/
def AddToBlock (s : SelState) (e : MemEntry) : SelState :=
  { s with blockTxs := s.blockTxs ++ [e],
           vTxFees := s.vTxFees ++ [e.fee],
           vTxSigOpsCost := s.vTxSigOpsCost ++ [e.sigOpCost],
           nBlockWeight := s.nBlockWeight + e.txWeight,
           nBlockTx := s.nBlockTx + 1,
           nBlockSigOpsCost := s.nBlockSigOpsCost + e.sigOpCost,
           nFees := s.nFees + e.fee }

/-- Resolve a pool handle: mapTx lookup by id. -/
def lookupEntry (mp : MemPool) (i : Nat) : Option MemEntry :=
  mp.entries.find? (fun e => e.id == i)

/-- Modelled from the spec (section 4.2 step 7): the package ordering of
SortForBlock, ancestor count ascending (`CompareTxIterByAncestorCount` of
miner.h, not in this repository), with the stable id tie-break. -/
def ancCountLE (a b : MemEntry) : Prop :=
  a.countWithAncestors < b.countWithAncestors ∨
    (a.countWithAncestors = b.countWithAncestors ∧ a.id ≤ b.id)

instance : DecidableRel ancCountLE := fun a b => by
  unfold ancCountLE
  infer_instance

instance : IsTotal MemEntry ancCountLE :=
  ⟨fun a b => by unfold ancCountLE; omega⟩

instance : IsTrans MemEntry ancCountLE :=
  ⟨fun a b c hab hbc => by
    unfold ancCountLE at hab hbc ⊢
    omega⟩

/-- `BlockAssembler::SortForBlock` (miner.cpp lines 552-561). -/
def SortForBlock (package : List MemEntry) : List MemEntry :=
  package.insertionSort ancCountLE

/-- Erasure of one handle from the modified set (unique ids by
construction). -/
def eraseModById (mmt : List ModEntry) (i : Nat) : List ModEntry :=
  mmt.filter (fun m => !(m.entry.id == i))

/-- `update_for_parent_inclusion` / the explicit subtraction of miner.cpp
lines 524-527. -/
def updateModForParent (p : MemEntry) (m : ModEntry) : ModEntry :=
  { m with nSizeWithAncestors := m.nSizeWithAncestors - p.txSize,
           nModFeesWithAncestors := m.nModFeesWithAncestors - p.modifiedFee,
           nSigOpCostWithAncestors := m.nSigOpCostWithAncestors - p.sigOpCost }

/-- One descendant update inside `UpdatePackagesForAdded` (miner.cpp lines
518-532): descendants already in the added set are skipped; a descendant
absent from the modified set is inserted as a fresh modified entry with the
parent contribution subtracted; an existing one is adjusted in place. -/
def updateStep (mp : MemPool) (addedIds : List Nat) (it : MemEntry)
    (acc : List ModEntry × Nat) (d : Nat) : List ModEntry × Nat :=
  if addedIds.contains d then acc
  else
    match lookupEntry mp d with
    | none => acc
    | some de =>
      if acc.1.any (·.entry.id == d) then
        (acc.1.map (fun m => if m.entry.id == d then updateModForParent it m else m),
         acc.2 + 1)
      else
        (acc.1 ++ [updateModForParent it (CTxMemPoolModifiedEntry de)], acc.2 + 1)

/-- `BlockAssembler::UpdatePackagesForAdded` (miner.cpp lines 510-535). -/
def UpdatePackagesForAdded (mp : MemPool) (alreadyAdded : List MemEntry)
    (mapModifiedTx : List ModEntry) : List ModEntry × Nat :=
  alreadyAdded.foldl (fun acc it =>
      (mp.descendantsOf it.id).foldl (updateStep mp (alreadyAdded.map (·.id)) it) acc)
    (mapModifiedTx, 0)

/-- The package for a candidate (miner.cpp lines 666-672):
CalculateMemPoolAncestors with no limits, onlyUnconfirmed, then the
candidate itself. -/
def packageOf (mp : MemPool) (s : SelState) (iter : MemEntry) : List MemEntry :=
  ((mp.ancestorsOf iter.id).filterMap (lookupEntry mp)).filter
    (fun e => !(inBlockIds s).contains e.id) ++ [iter]

inductive StepResult where
  | done (s : SelState)
  | next (s : SelState)
deriving DecidableEq

def StepResult.state : StepResult → SelState
  | .done s => s
  | .next s => s

/-- Appending one sorted package member: AddToBlock then erasure from the
modified set (miner.cpp lines 690-694). -/
def commitEntry (s : SelState) (e : MemEntry) : SelState :=
  let s2 := AddToBlock s e
  { s2 with mapModifiedTx := eraseModById s2.mapModifiedTx e.id }

/-- The loop body from the package aggregates on (miner.cpp lines 633-700):
fit test with failure accounting and the give-up break, ancestor package
computation, finality test (no failure counting on that path), then the
commit and descendant update. The minimum feerate gate that would compare
pkgFees against the configured floor (lines 642-645) is commented out in
the source and therefore absent here. -/
def afterSelect (mp : MemPool) (P : AsmParams) (s : SelState) (iter : MemEntry)
    (fUsingModified : Bool) (rawQueue2 : List MemEntry)
    (pkgSize pkgFees pkgSigOps : Int) : StepResult :=
  let s := { s with rawQueue := rawQueue2 }
  if !TestPackage s.nBlockWeight P.nBlockMaxWeight s.nBlockSigOpsCost pkgSize pkgSigOps then
    let s := if fUsingModified then
        { s with mapModifiedTx := eraseModById s.mapModifiedTx iter.id,
                 failedTx := iter.id :: s.failedTx }
      else s
    let s := { s with nConsecutiveFailed := s.nConsecutiveFailed + 1 }
    if s.nConsecutiveFailed > MAX_CONSECUTIVE_FAILURES ∧
        s.nBlockWeight > P.nBlockMaxWeight - 4000 then .done s
    else .next s
  else
    let package := packageOf mp s iter
    if !TestPackageTransactions P.fIncludeWitness package then
      let s := if fUsingModified then
          { s with mapModifiedTx := eraseModById s.mapModifiedTx iter.id,
                   failedTx := iter.id :: s.failedTx }
        else s
      .next s
    else
      let s := { s with nConsecutiveFailed := 0 }
      let s := (SortForBlock package).foldl commitEntry s
      let s := { s with nPackagesSelected := s.nPackagesSelected + 1 }
      let res := UpdatePackagesForAdded mp package s.mapModifiedTx
      .next { s with mapModifiedTx := res.1,
                     nDescendantsUpdated := s.nDescendantsUpdated + res.2 }

/-- Candidate selection (miner.cpp lines 603-640): with the raw cursor
exhausted take the modified head; otherwise compare the modified head with
the raw head under the comparator, preferring the strictly better modified
entry (raw cursor not advanced) and falling back to the raw entry (cursor
advanced). -/
def selectCore (mp : MemPool) (P : AsmParams) (s : SelState)
    (rawHead : Option MemEntry) (rest : List MemEntry) : StepResult :=
  match bestMod s.mapModifiedTx, rawHead with
  | none, none => StepResult.done s
  | some m, none =>
      afterSelect mp P s m.entry true s.rawQueue m.nSizeWithAncestors
        m.nModFeesWithAncestors m.nSigOpCostWithAncestors
  | none, some e =>
      afterSelect mp P s e false rest e.sizeWithAncestors e.modFeesWithAncestors
        e.sigOpCostWithAncestors
  | some m, some e =>
      if ancScoreBefore m.nModFeesWithAncestors m.nSizeWithAncestors m.entry.id
          e.modFeesWithAncestors e.sizeWithAncestors e.id then
        afterSelect mp P s m.entry true s.rawQueue m.nSizeWithAncestors
          m.nModFeesWithAncestors m.nSigOpCostWithAncestors
      else
        afterSelect mp P s e false rest e.sizeWithAncestors e.modFeesWithAncestors
          e.sigOpCostWithAncestors

/-- One iteration of the while loop of addPackageTxs (miner.cpp lines
594-700): exit when both views are exhausted; skip stale raw entries;
otherwise select and process a candidate. -/
def addPackageStep (mp : MemPool) (P : AsmParams) (s : SelState) : StepResult :=
  match s.rawQueue with
  | e :: rest =>
    if SkipMapTxEntry e s.mapModifiedTx (inBlockIds s) s.failedTx then
      StepResult.next { s with rawQueue := rest }
    else selectCore mp P s (some e) rest
  | [] =>
    if s.mapModifiedTx.isEmpty then StepResult.done s
    else selectCore mp P s none []

def addPackageLoop (mp : MemPool) (P : AsmParams) : Nat → SelState → SelState
  | 0, s => s
  | fuel + 1, s =>
    match addPackageStep mp P s with
    | .done s2 => s2
    | .next s2 => addPackageLoop mp P fuel s2

/-- The state addPackageTxs starts from: resetBlock (miner.cpp lines 94-106)
reserves weight 4000 and sigop cost 400 for the coinbase and clears inBlock,
and the loop seeds mapModifiedTx by updating for the (empty) inBlock set. -/
def initialSelState (mp : MemPool) : SelState :=
  { blockTxs := [], vTxFees := [], vTxSigOpsCost := [], nBlockWeight := 4000,
    nBlockSigOpsCost := 400, nBlockTx := 0, nFees := 0,
    mapModifiedTx := (UpdatePackagesForAdded mp [] []).1, failedTx := [],
    rawQueue := mp.byAncestorScore, nConsecutiveFailed := 0, nPackagesSelected := 0,
    nDescendantsUpdated := 0 }

/-- `BlockAssembler::addPackageTxs`, run with enough fuel for the loop. -/
def addPackageTxs (mp : MemPool) (P : AsmParams) (fuel : Nat) : SelState :=
  addPackageLoop mp P fuel (initialSelState mp)

/-- C7: package selection is independent of the configured minimum feerate.
The gate that would compare package fees against blockMinFeeRate (miner.cpp
lines 642-645) is commented out, so two runs that differ only in
blockMinFeeRate produce the same selection state, in particular the same
sequence of included transactions. -/
theorem addPackageTxs_minfee_independent (mp : MemPool) (P : AsmParams) (r1 r2 : Int)
    (fuel : Nat) :
    (addPackageTxs mp { P with blockMinFeeRate := r1 } fuel).blockTxs =
      (addPackageTxs mp { P with blockMinFeeRate := r2 } fuel).blockTxs := by
  suffices h : ∀ s, addPackageLoop mp { P with blockMinFeeRate := r1 } fuel s =
      addPackageLoop mp { P with blockMinFeeRate := r2 } fuel s by
    unfold addPackageTxs
    rw [h]
  induction fuel with
  | zero => intro s; rfl
  | succ n ih =>
    intro s
    have hstep : addPackageStep mp { P with blockMinFeeRate := r1 } s =
        addPackageStep mp { P with blockMinFeeRate := r2 } s := rfl
    unfold addPackageLoop
    rw [hstep]
    cases addPackageStep mp { P with blockMinFeeRate := r2 } s with
    | done s2 => rfl
    | next s2 => exact ih s2

/-- C6 (amended): when the finality/witness test fails for a candidate that
passed the fit test, the candidate is handled as a fit-test failure except
that the loop does not terminate on this path and nConsecutiveFailed is not
incremented: the candidate is erased from the modified set and marked failed
exactly when it came from there, everything else (including the failure
counter) is unchanged, and selection continues. -/
theorem finality_fail_handling (mp : MemPool) (P : AsmParams) (s : SelState)
    (iter : MemEntry) (fUsingModified : Bool) (rawQueue2 : List MemEntry)
    (pkgSize pkgFees pkgSigOps : Int)
    (hfit : TestPackage s.nBlockWeight P.nBlockMaxWeight s.nBlockSigOpsCost pkgSize
      pkgSigOps = true)
    (hfin : TestPackageTransactions P.fIncludeWitness
      (packageOf mp { s with rawQueue := rawQueue2 } iter) = false) :
    afterSelect mp P s iter fUsingModified rawQueue2 pkgSize pkgFees pkgSigOps =
      StepResult.next { s with
                        rawQueue := rawQueue2,
                        mapModifiedTx := if fUsingModified then
                            eraseModById s.mapModifiedTx iter.id
                          else s.mapModifiedTx,
                        failedTx := if fUsingModified then iter.id :: s.failedTx
                          else s.failedTx } := by
  cases fUsingModified <;> simp [afterSelect, hfit, hfin]

def eC6 : MemEntry := ⟨1, 100, 400, 10, 10, 1, 100, 10, 1, 1, false, false⟩

def mpC6 : MemPool := ⟨[eC6], [eC6], fun _ => [], fun _ => []⟩

def PC6 : AsmParams := ⟨1000000, 0, true⟩

/-- Counterexample for C6 as stated: at a concrete state whose candidate
passes the fit test but fails the finality test (a non-final transaction),
the failure counter is left unchanged, not incremented as the claim says. -/
theorem finality_fail_counterexample :
    TestPackage (initialSelState mpC6).nBlockWeight PC6.nBlockMaxWeight
      (initialSelState mpC6).nBlockSigOpsCost 100 1 = true ∧
    TestPackageTransactions PC6.fIncludeWitness
      (packageOf mpC6 { initialSelState mpC6 with rawQueue := [] } eC6) = false ∧
    (afterSelect mpC6 PC6 (initialSelState mpC6) eC6 false [] 100 10
        1).state.nConsecutiveFailed = (initialSelState mpC6).nConsecutiveFailed ∧
    ((afterSelect mpC6 PC6 (initialSelState mpC6) eC6 false [] 100 10
        1).state.nConsecutiveFailed =
      (initialSelState mpC6).nConsecutiveFailed + 1) = False := by
  refine ⟨by decide, by decide, by decide, eq_false ?_⟩
  decide

/-- Witness for the amended C6 at the same concrete state. -/
theorem finality_fail_handling_witness :
    afterSelect mpC6 PC6 (initialSelState mpC6) eC6 false [] 100 10 1 =
      StepResult.next { initialSelState mpC6 with
                        rawQueue := [],
                        mapModifiedTx := if false then
                            eraseModById (initialSelState mpC6).mapModifiedTx eC6.id
                          else (initialSelState mpC6).mapModifiedTx,
                        failedTx := if false then
                            eC6.id :: (initialSelState mpC6).failedTx
                          else (initialSelState mpC6).failedTx } :=
  finality_fail_handling mpC6 PC6 (initialSelState mpC6) eC6 false [] 100 10 1
    (by decide) (by decide)

/-! ## Well-formedness of the mempool collaborator and the selection invariant -/

/-- Coherence of the external mempool interfaces consumed by the selector:
ancestor enumerations return in-pool ids, are transitive and irreflexive,
the cached ancestor counts respect the ancestor relation, ids identify
entries, descendants invert ancestors, and the ancestor-score view ranges
over the pool. -/
structure MemPoolWF (mp : MemPool) : Prop where
  anc_mem : ∀ b a, a ∈ mp.ancestorsOf b → ∃ e, e ∈ mp.entries ∧ e.id = a
  anc_trans : ∀ a b c, a ∈ mp.ancestorsOf b → b ∈ mp.ancestorsOf c → a ∈ mp.ancestorsOf c
  anc_irrefl : ∀ a, a ∉ mp.ancestorsOf a
  anc_count : ∀ e1 e2, e1 ∈ mp.entries → e2 ∈ mp.entries →
    e1.id ∈ mp.ancestorsOf e2.id → e1.countWithAncestors < e2.countWithAncestors
  ids_nodup : (mp.entries.map (·.id)).Nodup
  desc_anc : ∀ a d, d ∈ mp.descendantsOf a → d = a ∨ a ∈ mp.ancestorsOf d
  raw_mem : ∀ e ∈ mp.byAncestorScore, e ∈ mp.entries

/-- Every in-pool ancestor of a transaction of the sequence appears at a
strictly smaller index of the sequence. -/
def AncClosed (mp : MemPool) (l : List MemEntry) : Prop :=
  ∀ l1 y l2, l = l1 ++ y :: l2 → ∀ a ∈ mp.ancestorsOf y.id, a ∈ l1.map (·.id)

/-- The invariant of the selection loop. -/
structure SelInv (mp : MemPool) (s : SelState) : Prop where
  closed : AncClosed mp s.blockTxs
  mod_mem : ∀ m ∈ s.mapModifiedTx, m.entry ∈ mp.entries
  mod_notin : ∀ m ∈ s.mapModifiedTx, m.entry.id ∉ inBlockIds s
  raw_mem : ∀ e ∈ s.rawQueue, e ∈ mp.entries

theorem lookupEntry_mem (mp : MemPool) (i : Nat) (e : MemEntry)
    (h : lookupEntry mp i = some e) : e ∈ mp.entries ∧ e.id = i := by
  unfold lookupEntry at h
  refine ⟨List.mem_of_find?_eq_some h, ?_⟩
  have h2 := List.find?_some h
  simpa using h2

theorem find_id_unique (l : List MemEntry) (e : MemEntry)
    (hnodup : (l.map (·.id)).Nodup) (h : e ∈ l) :
    l.find? (fun x => x.id == e.id) = some e := by
  induction l with
  | nil => simp at h
  | cons x t ih =>
    have hnodup2 : (t.map (·.id)).Nodup := by
      simp only [List.map_cons, List.nodup_cons] at hnodup
      exact hnodup.2
    rcases List.mem_cons.mp h with rfl | hte
    · exact List.find?_cons_of_pos t (by simp)
    · have hxid : x.id ≠ e.id := by
        simp only [List.map_cons, List.nodup_cons] at hnodup
        intro heq
        have hm2 : e.id ∈ t.map (·.id) := List.mem_map_of_mem _ hte
        rw [heq] at hnodup
        exact hnodup.1 hm2
      rw [List.find?_cons_of_neg t (by simp [hxid])]
      exact ih hnodup2 hte

theorem lookupEntry_self (mp : MemPool) (e : MemEntry)
    (hnodup : (mp.entries.map (·.id)).Nodup) (h : e ∈ mp.entries) :
    lookupEntry mp e.id = some e :=
  find_id_unique mp.entries e hnodup h

theorem foldl_pickBetter_mem (ms : List ModEntry) :
    ∀ b : ModEntry, ms.foldl pickBetter b = b ∨ ms.foldl pickBetter b ∈ ms := by
  induction ms with
  | nil => intro b; exact Or.inl rfl
  | cons m2 t ih =>
    intro b
    rcases ih (pickBetter b m2) with h | h
    · rw [List.foldl_cons, h]
      unfold pickBetter
      split
      · exact Or.inr (by simp)
      · exact Or.inl rfl
    · refine Or.inr (List.mem_cons_of_mem _ ?_)
      rw [List.foldl_cons]
      exact h

theorem bestMod_mem (l : List ModEntry) (m : ModEntry) (h : bestMod l = some m) :
    m ∈ l := by
  cases l with
  | nil => simp [bestMod] at h
  | cons x ms =>
    simp only [bestMod, Option.some.injEq] at h
    subst h
    rcases foldl_pickBetter_mem ms x with h2 | h2
    · rw [h2]
      simp
    · exact List.mem_cons_of_mem _ h2

/-- Projections of the commit fold: the sorted package is appended to the
block, the committed ids are erased from the modified set, and the raw
cursor is untouched. -/
theorem commit_fold_proj (l : List MemEntry) (s : SelState) :
    (l.foldl commitEntry s).blockTxs = s.blockTxs ++ l ∧
    (l.foldl commitEntry s).mapModifiedTx =
      s.mapModifiedTx.filter (fun m => !(l.map (·.id)).contains m.entry.id) ∧
    (l.foldl commitEntry s).rawQueue = s.rawQueue := by
  induction l generalizing s with
  | nil => simp
  | cons e t ih =>
    obtain ⟨h1, h2, h3⟩ := ih (commitEntry s e)
    refine ⟨?_, ?_, ?_⟩
    · rw [List.foldl_cons, h1]
      simp [commitEntry, AddToBlock]
    · rw [List.foldl_cons, h2]
      have hco : (commitEntry s e).mapModifiedTx =
          s.mapModifiedTx.filter (fun m => !(m.entry.id == e.id)) := rfl
      rw [hco, List.filter_filter]
      apply List.filter_congr
      intro m hm
      show (!(t.map (·.id)).contains m.entry.id && !(m.entry.id == e.id)) =
        !((e :: t).map (·.id)).contains m.entry.id
      rw [List.map_cons, List.contains_cons]
      cases (m.entry.id == e.id) <;> cases ((t.map (·.id)).contains m.entry.id) <;> rfl
    · rw [List.foldl_cons, h3]
      rfl

/-- Preservation of a predicate through one descendant update. -/
theorem updateStep_preserves (mp : MemPool) (addedIds : List Nat) (it : MemEntry)
    (Q : ModEntry → Prop)
    (hmod : ∀ p m, Q m → Q (updateModForParent p m))
    (d : Nat) (acc : List ModEntry × Nat)
    (hins : addedIds.contains d = false → ∀ de, lookupEntry mp d = some de →
        Q (updateModForParent it (CTxMemPoolModifiedEntry de)))
    (hacc : ∀ m ∈ acc.1, Q m) :
    ∀ m ∈ (updateStep mp addedIds it acc d).1, Q m := by
  intro m hm
  unfold updateStep at hm
  by_cases hc : addedIds.contains d = true
  · simp only [hc, if_true] at hm
    exact hacc m hm
  · rw [Bool.not_eq_true] at hc
    simp only [hc, Bool.false_eq_true, if_false] at hm
    cases hl : lookupEntry mp d with
    | none =>
      rw [hl] at hm
      exact hacc m hm
    | some de =>
      rw [hl] at hm
      by_cases hany : acc.1.any (·.entry.id == d) = true
      · simp only [hany, if_true] at hm
        obtain ⟨m0, hm0, hmeq⟩ := List.mem_map.mp hm
        by_cases hid : (m0.entry.id == d) = true
        · rw [if_pos hid] at hmeq
          rw [← hmeq]
          exact hmod it m0 (hacc m0 hm0)
        · rw [if_neg hid] at hmeq
          rw [← hmeq]
          exact hacc m0 hm0
      · simp only [hany, Bool.false_eq_true, if_false] at hm
        rcases List.mem_append.mp hm with hm2 | hm2
        · exact hacc m hm2
        · have hmeq : m = updateModForParent it (CTxMemPoolModifiedEntry de) := by
            simpa using hm2
          rw [hmeq]
          exact hins hc de hl

/-- Preservation through the fold over the descendants of one added entry. -/
theorem updateFold_preserves (mp : MemPool) (addedIds : List Nat) (it : MemEntry)
    (Q : ModEntry → Prop)
    (hmod : ∀ p m, Q m → Q (updateModForParent p m))
    (ds : List Nat)
    (hins : ∀ d ∈ ds, addedIds.contains d = false → ∀ de, lookupEntry mp d = some de →
        Q (updateModForParent it (CTxMemPoolModifiedEntry de))) :
    ∀ acc : List ModEntry × Nat, (∀ m ∈ acc.1, Q m) →
      ∀ m ∈ (ds.foldl (updateStep mp addedIds it) acc).1, Q m := by
  induction ds with
  | nil => intro acc hacc; exact hacc
  | cons d t ih =>
    intro acc hacc
    rw [List.foldl_cons]
    refine ih (fun d2 hd2 => hins d2 (List.mem_cons_of_mem _ hd2)) _ ?_
    exact updateStep_preserves mp addedIds it Q hmod d acc (hins d (by simp)) hacc

/-- Preservation of a predicate through UpdatePackagesForAdded. -/
theorem updatePackages_preserves (mp : MemPool) (added : List MemEntry)
    (mmt : List ModEntry) (Q : ModEntry → Prop)
    (hmm : ∀ m ∈ mmt, Q m)
    (hmod : ∀ p m, Q m → Q (updateModForParent p m))
    (hins : ∀ it ∈ added, ∀ d, d ∈ mp.descendantsOf it.id →
        (added.map (·.id)).contains d = false → ∀ de, lookupEntry mp d = some de →
        Q (updateModForParent it (CTxMemPoolModifiedEntry de))) :
    ∀ m ∈ (UpdatePackagesForAdded mp added mmt).1, Q m := by
  unfold UpdatePackagesForAdded
  suffices h : ∀ l : List MemEntry, (∀ it ∈ l, it ∈ added) →
      ∀ acc : List ModEntry × Nat, (∀ m ∈ acc.1, Q m) →
      ∀ m ∈ (l.foldl (fun acc it => (mp.descendantsOf it.id).foldl
          (updateStep mp (added.map (·.id)) it) acc) acc).1, Q m by
    exact h added (fun it h2 => h2) (mmt, 0) hmm
  intro l
  induction l with
  | nil => intro _ acc hacc; exact hacc
  | cons it t ih =>
    intro hl acc hacc
    rw [List.foldl_cons]
    refine ih (fun x hx => hl x (List.mem_cons_of_mem _ hx)) _ ?_
    exact updateFold_preserves mp (added.map (·.id)) it Q hmod (mp.descendantsOf it.id)
      (fun d hd => hins it (hl it (by simp)) d hd) acc hacc

/-! ## Properties of the computed package -/

theorem packageOf_chars (mp : MemPool) (s : SelState) (iter e : MemEntry)
    (h : e ∈ packageOf mp s iter) :
    e = iter ∨ (e ∈ mp.entries ∧ e.id ∈ mp.ancestorsOf iter.id ∧
      e.id ∉ inBlockIds s) := by
  unfold packageOf at h
  rcases List.mem_append.mp h with h | h
  · right
    obtain ⟨hmem, hpred⟩ := List.mem_filter.mp h
    obtain ⟨a, hal, hl⟩ := List.mem_filterMap.mp hmem
    obtain ⟨he, hid⟩ := lookupEntry_mem mp a e hl
    refine ⟨he, by rw [hid]; exact hal, ?_⟩
    simpa using hpred
  · left
    simpa using h

theorem packageOf_iter_mem (mp : MemPool) (s : SelState) (iter : MemEntry) :
    iter ∈ packageOf mp s iter := by
  unfold packageOf
  simp

theorem packageOf_disjoint (mp : MemPool) (s : SelState) (iter : MemEntry)
    (hnb : iter.id ∉ inBlockIds s) :
    ∀ e ∈ packageOf mp s iter, e.id ∉ inBlockIds s := by
  intro e he
  rcases packageOf_chars mp s iter e he with rfl | ⟨-, -, hnotin⟩
  · exact hnb
  · exact hnotin

theorem packageOf_mem_entries (mp : MemPool) (s : SelState) (iter : MemEntry)
    (hiter : iter ∈ mp.entries) :
    ∀ e ∈ packageOf mp s iter, e ∈ mp.entries := by
  intro e he
  rcases packageOf_chars mp s iter e he with rfl | ⟨he2, -, -⟩
  · exact hiter
  · exact he2

theorem packageOf_cover (mp : MemPool) (wf : MemPoolWF mp) (s : SelState)
    (iter : MemEntry) :
    ∀ y ∈ packageOf mp s iter, ∀ a ∈ mp.ancestorsOf y.id,
      a ∈ inBlockIds s ∨ ∃ x ∈ packageOf mp s iter, x.id = a := by
  intro y hy a ha
  have hanc : a ∈ mp.ancestorsOf iter.id := by
    rcases packageOf_chars mp s iter y hy with rfl | ⟨-, hyanc, -⟩
    · exact ha
    · exact wf.anc_trans a y.id iter.id ha hyanc
  by_cases hin : a ∈ inBlockIds s
  · exact Or.inl hin
  · right
    obtain ⟨ea, hea, heaid⟩ := wf.anc_mem iter.id a hanc
    have hlook : lookupEntry mp a = some ea := by
      rw [← heaid]
      exact lookupEntry_self mp ea wf.ids_nodup hea
    refine ⟨ea, ?_, heaid⟩
    unfold packageOf
    apply List.mem_append_left
    apply List.mem_filter.mpr
    refine ⟨List.mem_filterMap.mpr ⟨a, hanc, hlook⟩, ?_⟩
    simp [heaid, hin]

theorem packageOf_count (mp : MemPool) (wf : MemPoolWF mp) (s : SelState)
    (iter : MemEntry) (hiter : iter ∈ mp.entries) :
    ∀ x ∈ packageOf mp s iter, ∀ y ∈ packageOf mp s iter,
      x.id ∈ mp.ancestorsOf y.id → x.countWithAncestors < y.countWithAncestors := by
  intro x hx y hy hxy
  exact wf.anc_count x y (packageOf_mem_entries mp s iter hiter x hx)
    (packageOf_mem_entries mp s iter hiter y hy) hxy

/-! ## Closure of the extended block -/

theorem append_eq_append_cons_split {α : Type} (A B l1 l2 : List α) (y : α)
    (h : A ++ B = l1 ++ y :: l2) :
    (∃ l2a, A = l1 ++ y :: l2a) ∨ (∃ s1 s2, B = s1 ++ y :: s2 ∧ l1 = A ++ s1) := by
  rcases List.append_eq_append_iff.mp h with ⟨w, hw1, hw2⟩ | ⟨w, hw1, hw2⟩
  · exact Or.inr ⟨w, l2, hw2, hw1⟩
  · cases w with
    | nil =>
      simp only [List.append_nil] at hw1
      rw [List.nil_append] at hw2
      exact Or.inr ⟨[], l2, hw2.symm, by rw [List.append_nil, hw1]⟩
    | cons c cs =>
      injection hw2 with hy hl
      subst hy
      exact Or.inl ⟨cs, hw1⟩

theorem sortForBlock_perm (l : List MemEntry) : (SortForBlock l).Perm l :=
  List.perm_insertionSort ancCountLE l

theorem sortForBlock_sorted (l : List MemEntry) :
    List.Sorted ancCountLE (SortForBlock l) :=
  List.sorted_insertionSort ancCountLE l

/-- Appending a dependency-sorted package to an ancestor-closed block keeps
it ancestor-closed. -/
theorem ancClosed_append (mp : MemPool) (wf : MemPoolWF mp)
    (blk pkg sorted : List MemEntry)
    (hclosed : AncClosed mp blk)
    (hcover : ∀ y ∈ pkg, ∀ a ∈ mp.ancestorsOf y.id,
      a ∈ blk.map (·.id) ∨ ∃ x ∈ pkg, x.id = a)
    (hcount : ∀ x ∈ pkg, ∀ y ∈ pkg, x.id ∈ mp.ancestorsOf y.id →
      x.countWithAncestors < y.countWithAncestors)
    (hperm : sorted.Perm pkg) (hsort : List.Sorted ancCountLE sorted) :
    AncClosed mp (blk ++ sorted) := by
  intro l1 y l2 hdec a ha
  rcases append_eq_append_cons_split blk sorted l1 l2 y hdec with ⟨l2a, hA⟩ |
    ⟨s1, s2, hB, hl1⟩
  · exact hclosed l1 y l2a hA a ha
  · have hy : y ∈ pkg := hperm.mem_iff.mp (by rw [hB]; simp)
    rcases hcover y hy a ha with hin | ⟨x, hxp, hxid⟩
    · rw [hl1, List.map_append, List.mem_append]
      exact Or.inl hin
    · have hxs : x ∈ sorted := hperm.mem_iff.mpr hxp
      rw [hB] at hxs
      rcases List.mem_append.mp hxs with hx1 | hx2
      · rw [hl1, List.map_append, List.mem_append]
        right
        rw [← hxid]
        exact List.mem_map_of_mem _ hx1
      · rcases List.mem_cons.mp hx2 with rfl | hx3
        · exact absurd (hxid ▸ ha) (wf.anc_irrefl x.id)
        · exfalso
          have hyx : ancCountLE y x := by
            rw [hB] at hsort
            have hpw := (List.pairwise_append.mp hsort).2.1
            exact (List.pairwise_cons.mp hpw).1 x hx3
          have hlt : x.countWithAncestors < y.countWithAncestors :=
            hcount x hxp y hy (by rw [hxid]; exact ha)
          unfold ancCountLE at hyx
          omega

/-! ## Invariant preservation through one loop iteration -/

theorem SelInv.of_fields (mp : MemPool) (s s2 : SelState) (inv : SelInv mp s)
    (hb : s2.blockTxs = s.blockTxs)
    (hm : ∀ m ∈ s2.mapModifiedTx, m ∈ s.mapModifiedTx)
    (hr : ∀ e ∈ s2.rawQueue, e ∈ mp.entries) : SelInv mp s2 := by
  refine ⟨?_, fun m hm2 => inv.mod_mem m (hm m hm2), ?_, hr⟩
  · intro l1 y l2 hdec a ha
    exact inv.closed l1 y l2 (by rw [← hb]; exact hdec) a ha
  · intro m hm2
    unfold inBlockIds
    rw [hb]
    exact inv.mod_notin m (hm m hm2)

theorem eraseModById_subset (mmt : List ModEntry) (i : Nat) :
    ∀ m ∈ eraseModById mmt i, m ∈ mmt :=
  fun _ hm => List.mem_of_mem_filter hm

theorem iteDoneNext_state (c : Prop) [Decidable c] (x : SelState) :
    (if c then StepResult.done x else StepResult.next x).state = x := by
  split <;> rfl

/-- The outcome of afterSelect: either a failure path that leaves the block
untouched and only shrinks the modified set, or the commit path that appends
the sorted package and rebuilds the modified set through the descendant
update. -/
theorem afterSelect_cases (mp : MemPool) (P : AsmParams) (s : SelState) (iter : MemEntry)
    (fUM : Bool) (rq : List MemEntry) (pkgSize pkgFees pkgSigOps : Int) :
    ((afterSelect mp P s iter fUM rq pkgSize pkgFees pkgSigOps).state.blockTxs =
        s.blockTxs ∧
      (∀ m ∈ (afterSelect mp P s iter fUM rq pkgSize pkgFees
          pkgSigOps).state.mapModifiedTx, m ∈ s.mapModifiedTx) ∧
      (afterSelect mp P s iter fUM rq pkgSize pkgFees pkgSigOps).state.rawQueue = rq) ∨
    ((afterSelect mp P s iter fUM rq pkgSize pkgFees pkgSigOps).state.blockTxs =
        s.blockTxs ++ SortForBlock (packageOf mp { s with rawQueue := rq } iter) ∧
      (afterSelect mp P s iter fUM rq pkgSize pkgFees
          pkgSigOps).state.mapModifiedTx =
        (UpdatePackagesForAdded mp (packageOf mp { s with rawQueue := rq } iter)
          (s.mapModifiedTx.filter (fun m =>
            !((SortForBlock (packageOf mp { s with rawQueue := rq }
                iter)).map (·.id)).contains m.entry.id))).1 ∧
      (afterSelect mp P s iter fUM rq pkgSize pkgFees pkgSigOps).state.rawQueue = rq) := by
  obtain ⟨hb, hm, hr⟩ := commit_fold_proj
    (SortForBlock (packageOf mp { s with rawQueue := rq } iter))
    { s with rawQueue := rq, nConsecutiveFailed := 0 }
  simp only [afterSelect]
  by_cases hfit : TestPackage s.nBlockWeight P.nBlockMaxWeight s.nBlockSigOpsCost
      pkgSize pkgSigOps = true
  · have hc1 : ¬ ((!TestPackage s.nBlockWeight P.nBlockMaxWeight s.nBlockSigOpsCost
        pkgSize pkgSigOps) = true) := by simp [hfit]
    rw [if_neg hc1]
    by_cases hfin : TestPackageTransactions P.fIncludeWitness
        (packageOf mp { s with rawQueue := rq } iter) = true
    · have hc2 : ¬ ((!TestPackageTransactions P.fIncludeWitness
          (packageOf mp { s with rawQueue := rq } iter)) = true) := by simp [hfin]
      rw [if_neg hc2]
      right
      refine ⟨hb, ?_, hr⟩
      show (UpdatePackagesForAdded mp (packageOf mp { s with rawQueue := rq } iter)
          ((List.foldl commitEntry { s with rawQueue := rq, nConsecutiveFailed := 0 }
            (SortForBlock (packageOf mp { s with rawQueue := rq }
              iter))).mapModifiedTx)).1 = _
      rw [hm]
    · have hc2 : (!TestPackageTransactions P.fIncludeWitness
          (packageOf mp { s with rawQueue := rq } iter)) = true := by
        simp [Bool.not_eq_true] at hfin
        simp [hfin]
      rw [if_pos hc2]
      left
      cases fUM
      · exact ⟨rfl, fun m hm2 => hm2, rfl⟩
      · exact ⟨rfl, fun m hm2 => eraseModById_subset _ _ m hm2, rfl⟩
  · have hc1 : (!TestPackage s.nBlockWeight P.nBlockMaxWeight s.nBlockSigOpsCost
        pkgSize pkgSigOps) = true := by
      simp [Bool.not_eq_true] at hfit
      simp [hfit]
    rw [if_pos hc1]
    left
    rw [iteDoneNext_state]
    cases fUM
    · exact ⟨rfl, fun m hm2 => hm2, rfl⟩
    · exact ⟨rfl, fun m hm2 => eraseModById_subset _ _ m hm2, rfl⟩

/-- The selection invariant survives afterSelect, for a candidate from the
pool that is not yet in the block. -/
theorem afterSelect_preserves (mp : MemPool) (P : AsmParams) (s : SelState)
    (iter : MemEntry) (fUM : Bool) (rq : List MemEntry)
    (pkgSize pkgFees pkgSigOps : Int)
    (wf : MemPoolWF mp) (inv : SelInv mp s)
    (hraw2 : ∀ e ∈ rq, e ∈ mp.entries)
    (hiter_mem : iter ∈ mp.entries)
    (hiter_nb : iter.id ∉ inBlockIds s) :
    SelInv mp (afterSelect mp P s iter fUM rq pkgSize pkgFees pkgSigOps).state := by
  rcases afterSelect_cases mp P s iter fUM rq pkgSize pkgFees pkgSigOps with
    ⟨hb, hm, hr⟩ | ⟨hb, hm, hr⟩
  · refine SelInv.of_fields mp s _ inv hb hm ?_
    intro e he
    rw [hr] at he
    exact hraw2 e he
  · have hnb1 : iter.id ∉ inBlockIds { s with rawQueue := rq } := hiter_nb
    have hclosed2 : AncClosed mp (s.blockTxs ++
        SortForBlock (packageOf mp { s with rawQueue := rq } iter)) :=
      ancClosed_append mp wf s.blockTxs (packageOf mp { s with rawQueue := rq } iter)
        (SortForBlock (packageOf mp { s with rawQueue := rq } iter)) inv.closed
        (fun y hy a ha => packageOf_cover mp wf { s with rawQueue := rq } iter y hy a ha)
        (packageOf_count mp wf { s with rawQueue := rq } iter hiter_mem)
        (sortForBlock_perm _) (sortForBlock_sorted _)
    have hQ : ∀ m ∈ (UpdatePackagesForAdded mp
        (packageOf mp { s with rawQueue := rq } iter)
        (s.mapModifiedTx.filter (fun m =>
          !((SortForBlock (packageOf mp { s with rawQueue := rq }
            iter)).map (·.id)).contains m.entry.id))).1,
        m.entry ∈ mp.entries ∧ m.entry.id ∉
          (s.blockTxs ++ SortForBlock (packageOf mp { s with rawQueue := rq }
            iter)).map (·.id) := by
      apply updatePackages_preserves
      · intro m hmem
        obtain ⟨hmm, hpred⟩ := List.mem_filter.mp hmem
        refine ⟨inv.mod_mem m hmm, ?_⟩
        rw [List.map_append, List.mem_append]
        intro hcon
        rcases hcon with hcon | hcon
        · exact inv.mod_notin m hmm hcon
        · have hct : ((SortForBlock (packageOf mp { s with rawQueue := rq }
              iter)).map (·.id)).contains m.entry.id = true := by
            simpa using hcon
          rw [hct] at hpred
          simp at hpred
      · intro p m hQm
        exact hQm
      · intro it hit d hd hcont de hde
        obtain ⟨hdeE, hdeId⟩ := lookupEntry_mem mp d de hde
        refine ⟨hdeE, ?_⟩
        show de.id ∉ _
        rw [hdeId, List.map_append, List.mem_append]
        intro hcon
        rcases hcon with hcon | hcon
        · obtain ⟨w, hw, hwid⟩ := List.mem_map.mp hcon
          obtain ⟨u, v, hsplit⟩ := List.append_of_mem hw
          rcases wf.desc_anc it.id d hd with rfl | hanc
          · have hmm2 : it.id ∈ (packageOf mp { s with rawQueue := rq }
                iter).map (·.id) := List.mem_map.mpr ⟨it, hit, rfl⟩
            have hct : ((packageOf mp { s with rawQueue := rq }
                iter).map (·.id)).contains it.id = true := by
              simpa using hmm2
            rw [hct] at hcont
            simp at hcont
          · have hanc2 : it.id ∈ mp.ancestorsOf w.id := by
              rw [hwid]
              exact hanc
            have hin : it.id ∈ u.map (·.id) := inv.closed u w v hsplit it.id hanc2
            have hinblk : it.id ∈ inBlockIds s := by
              unfold inBlockIds
              rw [hsplit, List.map_append, List.mem_append]
              exact Or.inl hin
            exact packageOf_disjoint mp { s with rawQueue := rq } iter hnb1 it hit hinblk
        · have hpkg : d ∈ (packageOf mp { s with rawQueue := rq }
              iter).map (·.id) :=
            ((sortForBlock_perm _).map (·.id)).mem_iff.mp hcon
          have hct : ((packageOf mp { s with rawQueue := rq }
              iter).map (·.id)).contains d = true := by
            simpa using hpkg
          rw [hct] at hcont
          simp at hcont
    refine ⟨?_, ?_, ?_, ?_⟩
    · intro l1 y l2 hdec a ha
      exact hclosed2 l1 y l2 (by rw [← hb]; exact hdec) a ha
    · intro m hmem
      rw [hm] at hmem
      exact (hQ m hmem).1
    · intro m hmem
      rw [hm] at hmem
      have h2 := (hQ m hmem).2
      unfold inBlockIds
      rw [hb]
      exact h2
    · intro e he
      rw [hr] at he
      exact hraw2 e he

/-- One loop iteration preserves the selection invariant. -/
theorem addPackageStep_preserves (mp : MemPool) (P : AsmParams) (s : SelState)
    (wf : MemPoolWF mp) (inv : SelInv mp s) :
    SelInv mp (addPackageStep mp P s).state := by
  unfold addPackageStep
  cases hq : s.rawQueue with
  | cons e rest =>
    dsimp only
    have hrest : ∀ e2 ∈ rest, e2 ∈ mp.entries := fun e2 he2 =>
      inv.raw_mem e2 (by rw [hq]; exact List.mem_cons_of_mem _ he2)
    by_cases hskip : SkipMapTxEntry e s.mapModifiedTx (inBlockIds s) s.failedTx = true
    · rw [if_pos hskip]
      exact SelInv.of_fields mp s _ inv rfl (fun m hm => hm) hrest
    · rw [if_neg hskip]
      have hem : e ∈ mp.entries := inv.raw_mem e (by rw [hq]; exact List.mem_cons_self _ _)
      have henb : e.id ∉ inBlockIds s := by
        intro hmem
        apply hskip
        unfold SkipMapTxEntry
        have hc : (inBlockIds s).contains e.id = true := by simpa using hmem
        rw [hc]
        simp
      unfold selectCore
      cases hbm : bestMod s.mapModifiedTx with
      | none =>
        exact afterSelect_preserves mp P s e false rest _ _ _ wf inv hrest hem henb
      | some m =>
        dsimp only
        have hmm := bestMod_mem _ m hbm
        by_cases hcmp : ancScoreBefore m.nModFeesWithAncestors m.nSizeWithAncestors
            m.entry.id e.modFeesWithAncestors e.sizeWithAncestors e.id = true
        · rw [if_pos hcmp]
          exact afterSelect_preserves mp P s m.entry true s.rawQueue _ _ _ wf inv
            inv.raw_mem (inv.mod_mem m hmm) (inv.mod_notin m hmm)
        · rw [if_neg hcmp]
          exact afterSelect_preserves mp P s e false rest _ _ _ wf inv hrest hem henb
  | nil =>
    dsimp only
    by_cases hemp : s.mapModifiedTx.isEmpty = true
    · rw [if_pos hemp]
      exact inv
    · rw [if_neg hemp]
      unfold selectCore
      cases hbm : bestMod s.mapModifiedTx with
      | none => exact inv
      | some m =>
        have hmm := bestMod_mem _ m hbm
        exact afterSelect_preserves mp P s m.entry true s.rawQueue _ _ _ wf inv
          inv.raw_mem (inv.mod_mem m hmm) (inv.mod_notin m hmm)

/-- The whole loop preserves the selection invariant, for any fuel. -/
theorem addPackageLoop_preserves (mp : MemPool) (P : AsmParams)
    (wf : MemPoolWF mp) :
    ∀ (fuel : Nat) (s : SelState), SelInv mp s → SelInv mp (addPackageLoop mp P fuel s) := by
  intro fuel
  induction fuel with
  | zero => intro s hs; exact hs
  | succ n ih =>
    intro s hs
    unfold addPackageLoop
    have hpres := addPackageStep_preserves mp P s wf hs
    cases haz : addPackageStep mp P s with
    | done s2 =>
      rw [haz] at hpres
      exact hpres
    | next s2 =>
      rw [haz] at hpres
      exact ih s2 hpres

/-- The state resetBlock and the modified-set seeding leave in place
satisfies the invariant. -/
theorem initial_selInv (mp : MemPool) (wf : MemPoolWF mp) :
    SelInv mp (initialSelState mp) := by
  refine ⟨?_, ?_, ?_, ?_⟩
  · intro l1 y l2 hdec a ha
    exact absurd hdec (by simp [initialSelState])
  · intro m hm
    simp [initialSelState, UpdatePackagesForAdded] at hm
  · intro m hm
    simp [initialSelState, UpdatePackagesForAdded] at hm
  · exact wf.raw_mem

/-- C1 (amended): the ancestor-before-descendant ordering holds for the
transaction sequence produced by the package selector (addPackageTxs,
miner.cpp lines 573-701): in a well-formed mempool, whenever the selected
sequence splits as l1 ++ y :: l2, every in-pool ancestor id of y already
occurs among the ids of l1. The original claim asserted this of the final
template transaction list of CreateNewBlock; there it fails, because the
privacy screening that runs after selection can delete an ancestor while
keeping its descendant (see the counterexample). -/
theorem addPackageTxs_ancestors_before (mp : MemPool) (P : AsmParams) (fuel : Nat)
    (wf : MemPoolWF mp) (l1 : List MemEntry) (y : MemEntry) (l2 : List MemEntry)
    (hdec : (addPackageTxs mp P fuel).blockTxs = l1 ++ y :: l2)
    (a : Nat) (ha : a ∈ mp.ancestorsOf y.id) : a ∈ l1.map (·.id) :=
  (addPackageLoop_preserves mp P wf fuel (initialSelState mp)
    (initial_selInv mp wf)).closed l1 y l2 hdec a ha

/-- A two-transaction chain: eC1B depends on eC1A. -/
def eC1A : MemEntry :=
  ⟨1, 100, 400, 5, 5, 1, 100, 5, 1, 1, true, false⟩

def eC1B : MemEntry :=
  ⟨2, 100, 400, 7, 7, 1, 200, 12, 2, 2, true, false⟩

def mpC1 : MemPool :=
  ⟨[eC1A, eC1B], [eC1A, eC1B],
    fun b => if b = 2 then [1] else [],
    fun a => if a = 1 then [2] else []⟩

def PC1 : AsmParams := ⟨1000000, 0, true⟩

theorem mpC1_wf : MemPoolWF mpC1 := by
  refine ⟨?_, ?_, ?_, ?_, ?_, ?_, ?_⟩
  · intro b a ha
    dsimp [mpC1] at ha
    split at ha
    · rename_i hb
      simp at ha
      subst ha
      exact ⟨eC1A, by simp [mpC1], rfl⟩
    · simp at ha
  · intro a b c hab hbc
    dsimp [mpC1] at hab hbc ⊢
    split at hbc
    · rename_i hc
      simp at hbc
      subst hbc
      split at hab
      · rename_i hb
        omega
      · simp at hab
    · simp at hbc
  · intro a ha
    dsimp [mpC1] at ha
    split at ha
    · rename_i hb
      simp at ha
      omega
    · simp at ha
  · intro e1 e2 h1 h2 h3
    simp only [mpC1, List.mem_cons, List.not_mem_nil, or_false] at h1 h2
    rcases h1 with rfl | rfl <;> rcases h2 with rfl | rfl <;>
      revert h3 <;> decide
  · decide
  · intro a d hd
    dsimp [mpC1] at hd ⊢
    split at hd
    · rename_i hb
      simp at hd
      subst hd
      subst hb
      right
      simp
    · simp at hd
  · intro e he
    exact he

theorem addPackageTxs_ancestors_before_witness :
    (1 : Nat) ∈ ([eC1A].map (·.id)) :=
  addPackageTxs_ancestors_before mpC1 PC1 10 mpC1_wf [eC1A] eC1B []
    (by decide) 1 (by decide)

/-- The transaction list of the returned template: CreateNewBlock places the
dummy coinbase in slot 0 (miner.cpp line 194), addPackageTxs appends the
selected mempool transactions, and the privacy screening plus the rebuild
loop (lines 209-298) then filter that list. txOf resolves a selected id to
its transaction. -/
def createNewBlockTxs (mp : MemPool) (P : AsmParams) (fuel : Nat)
    (cv : ChainView) (txOf : Nat → BlockTx) (prevReserve : Int) :
    List (Option BlockTx) :=
  let sel := addPackageTxs mp P fuel
  let vtx : List (Option BlockTx) :=
    none :: sel.blockTxs.map (fun e => some (txOf e.id))
  rebuildVtx (scanBlock cv vtx prevReserve).setDuplicate vtx

/-- The ordering property of the original claim, stated of the final
template list: every in-pool ancestor of a kept transaction occupies an
earlier slot of the list. -/
def TemplateAncClosed (mp : MemPool) (vtx : List (Option BlockTx)) : Prop :=
  ∀ l1 t l2, vtx = l1 ++ some t :: l2 → ∀ a ∈ mp.ancestorsOf t.hash,
    ∃ u ∈ l1, ∃ tu, u = some tu ∧ tu.hash = a

/-- Transaction bodies for the chain of mpC1: the parent is a zerocoin spend
of serial hash 7 with its inputs available, the child spends an anonymous
input. -/
def txOfC1 : Nat → BlockTx := fun i =>
  if i = 1 then ⟨1, true, false, [7], [], false, true, []⟩
  else ⟨2, false, false, [], [], true, false, []⟩

/-- A chain on which serial hash 7 is already recorded. -/
def cvC1 : ChainView := ⟨fun h => h == 7, fun _ => false, 99⟩

/-- C1 counterexample for the claim as stated over the whole of
CreateNewBlock: the selector emits parent before child, but the privacy
screening finds the parent serial already on chain and drops the parent,
while the child survives the rebuild filter through its anonymous input; in
the returned template the child is present with no earlier slot holding its
ancestor. -/
theorem createNewBlock_ancestors_counterexample :
    TemplateAncClosed mpC1 (createNewBlockTxs mpC1 PC1 10 cvC1 txOfC1 0) = False := by
  apply eq_false
  intro h
  have h2 := h [none] (txOfC1 2) [] (by decide) 1 (by decide)
  obtain ⟨u, hu, tu, hutu, hh⟩ := h2
  simp only [List.mem_singleton] at hu
  subst hu
  exact Option.noConfusion hutu

/-- The state shared across PoW builds: the lock-protected counter
`nNonce_base` (miner.cpp line 730) and the static `hashPrevBlock` memory of
IncrementExtraNonce (line 706). The 32-bit wrap of the counters is not
modelled. -/
structure PowMinerState where
  nNonceBase : Nat
  hashPrevStatic : Nat
deriving DecidableEq

/-- `IncrementExtraNonce` (miner.cpp lines 703-712) restricted to the nonce
bookkeeping: reset the passed counter to 0 when the static memory differs
from the template's previous-block hash, remember the hash, then
pre-increment. Returns the new static memory and the value the coinbase
scriptsig encodes. -/
def incrementExtraNonce (hashPrevStatic tipHash nExtraNonce : Nat) : Nat × Nat :=
  let p := if hashPrevStatic ≠ tipHash then (0, tipHash)
    else (nExtraNonce, hashPrevStatic)
  (p.2, p.1 + 1)

/-- One PoW build of BitcoinMiner (miner.cpp lines 829-843): reserve
nNonceLocal from the shared counter under the lock (post-increment), set
nExtraNonce to the reserved value and run IncrementExtraNonce against the
template's previous-block hash. Returns the updated shared state and the
encoded extra-nonce. -/
def powBuild (st : PowMinerState) (tipHash : Nat) : PowMinerState × Nat :=
  let nNonceLocal := st.nNonceBase
  let base2 := st.nNonceBase + 1
  let r := incrementExtraNonce st.hashPrevStatic tipHash nNonceLocal
  (⟨base2, r.1⟩, r.2)

theorem powBuild_static (st : PowMinerState) (t : Nat) :
    (powBuild st t).1.hashPrevStatic = t := by
  by_cases h : st.hashPrevStatic = t <;>
    simp [powBuild, incrementExtraNonce, h]

theorem powBuild_base (st : PowMinerState) (t : Nat) :
    (powBuild st t).1.nNonceBase = st.nNonceBase + 1 := by
  by_cases h : st.hashPrevStatic = t <;>
    simp [powBuild, incrementExtraNonce, h]

theorem powBuild_enc_ne (st : PowMinerState) (t : Nat)
    (h : st.hashPrevStatic ≠ t) : (powBuild st t).2 = 1 := by
  simp [powBuild, incrementExtraNonce, h]

theorem powBuild_enc_eq (st : PowMinerState) (t : Nat)
    (h : st.hashPrevStatic = t) : (powBuild st t).2 = st.nNonceBase + 1 := by
  simp [powBuild, incrementExtraNonce, h]

/-- C8: across two consecutive PoW builds, a changed previous-block hash
makes the second build encode extra-nonce 1 (the counter restarts from 0
and is pre-incremented), while a build against the unchanged tip encodes a
strictly larger extra-nonce than the previous build, the reservations from
the shared counter being distinct and increasing. -/
theorem extraNonce_reset_and_increase (st : PowMinerState) (t1 t2 : Nat) :
    (t2 ≠ t1 → (powBuild (powBuild st t1).1 t2).2 = 1) ∧
    (t2 = t1 → (powBuild st t1).2 < (powBuild (powBuild st t1).1 t2).2) := by
  have hstatic : (powBuild st t1).1.hashPrevStatic = t1 := powBuild_static st t1
  constructor
  · intro hne
    exact powBuild_enc_ne _ _ (by rw [hstatic]; exact fun hh => hne hh.symm)
  · intro heq
    have henc2 : (powBuild (powBuild st t1).1 t2).2 =
        (powBuild st t1).1.nNonceBase + 1 :=
      powBuild_enc_eq _ _ (by rw [hstatic, heq])
    rw [henc2, powBuild_base]
    by_cases h : st.hashPrevStatic = t1
    · rw [powBuild_enc_eq st t1 h]
      omega
    · rw [powBuild_enc_ne st t1 h]
      omega

theorem extraNonce_reset_and_increase_witness :
    ((2 : Nat) ≠ 1 ∧ (powBuild (powBuild ⟨5, 0⟩ 1).1 2).2 = 1) ∧
    ((1 : Nat) = 1 ∧ (powBuild ⟨5, 0⟩ 1).2 < (powBuild (powBuild ⟨5, 0⟩ 1).1 1).2) :=
  ⟨⟨by decide, (extraNonce_reset_and_increase ⟨5, 0⟩ 1 2).1 (by decide)⟩,
    ⟨rfl, (extraNonce_reset_and_increase ⟨5, 0⟩ 1 1).2 rfl⟩⟩

/-- Inputs to one pass over the PoS wait region (miner.cpp lines 778-794):
whether the wallet is locked without the staking-only unlock, the cached
mintable flag, whether adjusted time is behind tip time minus
MAX_PAST_BLOCK_TIME, whether the one-minute mintable re-check is due, and
what that re-check would return. -/
structure StakeWaitEnv where
  lockedNotStakingOnly : Bool
  fMintableCoins : Bool
  timeTooEarly : Bool
  refreshDue : Bool
  mintableOnRefresh : Bool
deriving DecidableEq

/-- Outcome of the wait region: the number of 2.5-second sleeps performed
and whether control falls through to template construction (rather than
taking the `continue`). -/
structure StakeWaitResult where
  sleeps : Nat
  proceedsToBuild : Bool
deriving DecidableEq

/-- The PoS wait region as written (miner.cpp lines 778-794). The while
body ends in an unconditional `break`, so the body runs at most once;
fNextIter is set only when the mintable flag, after the optional one-minute
refresh, is still false, and only fNextIter triggers the `continue`. -/
def stakeWaitRegion (env : StakeWaitEnv) : StakeWaitResult :=
  let cond := env.lockedNotStakingOnly || !env.fMintableCoins || env.timeTooEarly
  if cond then
    let fMint2 := if !env.fMintableCoins && env.refreshDue
      then env.mintableOnRefresh else env.fMintableCoins
    let fNextIter := !fMint2
    ⟨1, !fNextIter⟩
  else
    ⟨0, true⟩

/-- C9: the wait region never repeats. In every environment it sleeps at
most once, and in the concrete environment where the wait condition holds
because the wallet is locked without the staking-only unlock (mintable
coins present, timing fine), it performs exactly one 2.5-second sleep and
falls through to template construction with the condition still uncleared
— the `break` ending the while body defeats the re-evaluate-until-clear
behaviour the claim describes. -/
theorem stakeWaitRegion_no_repeat :
    (∀ env : StakeWaitEnv, (stakeWaitRegion env).sleeps ≤ 1) ∧
    stakeWaitRegion ⟨true, true, false, false, false⟩ = ⟨1, true⟩ := by
  constructor
  · intro env
    unfold stakeWaitRegion
    dsimp only
    split <;> simp
  · rfl

end VeilMiner
